import Mathlib

/-!
Verification development for the pydanclick schema-to-CLI mapping engine.

The Python sources under `pydanclick/` are shallowly embedded: Python strings
become `List Char`, Python values become the inductive `Value`, Pydantic type
hints become the inductive `PType`, and each Python function of interest is
translated into a Lean function of the same name (with leading underscores
dropped).  Fallible Python code (functions that may raise) is translated into
`Except Str`-valued functions.  Definitions that stand for code outside the
repository (the Click parser semantics and the Pydantic validating
constructor, both specified only through their interfaces) carry a doc
comment starting with `Modelled from the spec:`.
-/

set_option maxHeartbeats 1000000

namespace Pydanclick

/-- Python strings, modelled as lists of characters. -/
abbrev Str := List Char

/-- Python runtime values, as far as the pipeline needs them.  `vDefault`
models a `PydanclickDefault` wrapper object (and its `PydanclickDefaultCallable`
subclass, whose payload is then the value the wrapped factory produces). -/
inductive Value : Type where
  | vNone : Value
  | vStr (s : Str) : Value
  | vInt (n : Int) : Value
  | vBool (b : Bool) : Value
  | vList (xs : List Value) : Value
  | vDict (xs : List (Str × Value)) : Value
  | vDefault (payload : Value) : Value

/-- Default information of a Pydantic `FieldInfo`: either `PydanticUndefined`
with no factory, an explicit default value, or a default factory (modelled by
the value it produces; `default` and `default_factory` are mutually exclusive
in Pydantic). -/
inductive PDefault : Type where
  | undef : PDefault
  | value (v : Value) : PDefault
  | factory (v : Value) : PDefault

/-- Numeric constraints attached to a field (`annotated_types.Ge/Gt/Le/Lt`),
with integer bounds. -/
inductive NumConstraint : Type where
  | ge (n : Int)
  | gt (n : Int)
  | le (n : Int)
  | lt (n : Int)

/-- Python type hints, restricted to the universe exercised by the claims.
A `tModel` is a Pydantic `BaseModel` class; it carries the parsed attribute
documentation of its docstring (the output of `parse_attribute_documentation`)
and its ordered field declarations.  Each field declaration is
`(name, type hint, default, numeric constraints, description)`. -/
inductive PType : Type where
  | tStr
  | tInt
  | tFloat
  | tBool
  | tNone
  | tLiteral (choices : List Str)
  | tList (elem : PType)
  | tUnion (args : List PType)
  | tModel (docs : List (Str × Str)) (fields : List (Str × PType × PDefault × List NumConstraint × Option Str))

/-- A field declaration inside a `PType.tModel`. -/
abbrev PFieldDecl := Str × PType × PDefault × List NumConstraint × Option Str

/-- The slice of a Pydantic `FieldInfo` that the pipeline reads. -/
structure FieldInfo where
  ann : PType
  dflt : PDefault
  metadata : List NumConstraint
  description : Option Str

/-- The `_Field` dataclass of `field_collection.py`. -/
structure PydField where
  name : Str
  dotted_name : Str
  field_info : FieldInfo
  documentation : Option Str
  parents : List Str
  unpacked_from : Option Str

/-- The `_Field.is_boolean_flag` property: the annotation is `bool`. -/
def PydField.is_boolean_flag (f : PydField) : Bool :=
  match f.field_info.ann with
  | .tBool => true
  | _ => false

/-- The `_Field.multiple` property: `unpacked_from is not None`. -/
def PydField.multiple (f : PydField) : Bool :=
  f.unpacked_from.isSome

/-- Python `".".join(parts)`. -/
def joinDots : List Str → Str
  | [] => []
  | [s] => s
  | s :: rest => s ++ '.' :: joinDots rest

/-- Python `sep.join(parts)` for a one-character separator. -/
def joinSep (sep : Char) : List Str → Str
  | [] => []
  | [s] => s
  | s :: rest => s ++ sep :: joinSep sep rest

/-- Python `d.get(k)` on a dict represented as an association list in
insertion order (keys are unique in a Python dict). -/
def alookup {α : Type} (m : List (Str × α)) (k : Str) : Option α :=
  match m with
  | [] => none
  | (k', v) :: rest => if k' = k then some v else alookup rest k

/-- Python `d[k] = v` on a dict association list: replace in place if the key
exists, otherwise append. -/
def dictSet (d : List (Str × Value)) (k : Str) (v : Value) : List (Str × Value) :=
  match d with
  | [] => [(k, v)]
  | (k', v') :: rest => if k' = k then (k, v) :: rest else (k', v') :: dictSet rest k v

/-- Python `del d[k]`. -/
def dictRemove (d : List (Str × Value)) (k : Str) : List (Str × Value) :=
  d.filter (fun kv => decide (kv.1 ≠ k))

/-- Python `s.split(sep)` for a one-character separator: always returns a
nonempty list of (possibly empty) chunks. -/
def splitOnChar (sep : Char) : Str → List Str
  | [] => [[]]
  | c :: rest =>
    match splitOnChar sep rest with
    | [] => [[c]]
    | s :: ss => if c = sep then [] :: s :: ss else (c :: s) :: ss

/-- Characters matched by the regex class `\w` (ASCII fragment, enough for
Python identifiers). -/
def wordCharB (c : Char) : Bool :=
  c.isAlpha || c.isDigit || c = '_'

/-- Whether position `i` of `s` holds a `\w` character (`false` past the
end). -/
def wordAt (s : Str) (i : Nat) : Bool :=
  match s.get? i with
  | some c => wordCharB c
  | none => false

/-- The regex word boundary `\b` between positions `i - 1` and `i` of `s`. -/
def boundaryAt (s : Str) (i : Nat) : Bool :=
  (if i = 0 then false else wordAt s (i - 1)) != wordAt s i

/-- Denotation of `re.search(r"^(p)\b", s)` for a literal pattern `p` whose
dots are escaped, as built by `collect_fields`: `s` starts with `p` and a word
boundary follows. -/
def matchesExcludedOne (p s : Str) : Bool :=
  p.isPrefixOf s && boundaryAt s p.length

/-- Denotation of the full excluded-fields pattern `^(p1|p2|...)\b`
(alternation): some excluded path matches. -/
def matchesExcluded (ps : List Str) (s : Str) : Bool :=
  ps.any (fun p => matchesExcludedOne p s)

mutual

/-- The model branch of `_collect_fields`: iterate over the model fields in
declaration order; `docs` is the parsed attribute documentation of the model
(the `parse_docstring` toggle replaces it by the empty dict). -/
def collectFieldList (fields : List PFieldDecl) (docs : List (Str × Str)) (parents : List Str)
    (parseDoc : Bool) (unpack : Bool) : Except Str (List PydField) :=
  match fields with
  | [] => .ok []
  | (fname, fann, fdflt, fmeta, fdescr) :: rest => do
    let documentation := if parseDoc then alookup docs fname else none
    let head ← collectOneField fann ⟨fann, fdflt, fmeta, fdescr⟩ fname (parents ++ [fname])
      documentation parseDoc unpack
    let tail ← collectFieldList rest docs parents parseDoc unpack
    .ok (head ++ tail)
termination_by sizeOf fields

/-- The `FieldInfo` branch of `_collect_fields`, for one field whose
annotation is `fann`: recurse into a model annotation, expand an unpacked
`list[Model]`, otherwise recurse into model members of a union and yield the
leaf itself.  The `ValueError` raised on a nameless field becomes an
`Except.error`. -/
def collectOneField (fann : PType) (fi : FieldInfo) (name : Str) (parents : List Str)
    (documentation : Option Str) (parseDoc : Bool) (unpack : Bool) : Except Str (List PydField) :=
  match unpack, fann with
  | _, .tModel docs fields => collectFieldList fields docs parents parseDoc unpack
  | true, .tList (.tModel docs fields) =>
    if name = [] then .error "ValueError".toList
    else do
      -- unpack_list is reset to False inside an unpacked model
      let sub ← collectFieldList fields docs parents parseDoc false
      .ok (sub.map (fun f => { f with unpacked_from := some (joinDots parents) }))
  | _, ann' =>
    if name = [] then .error "ValueError".toList
    else do
      let fromUnion ← (match ann' with
        | .tUnion args => collectUnionArgs args parents parseDoc unpack
        | _ => .ok [])
      .ok (fromUnion ++ [⟨name, joinDots parents, fi, documentation, parents, none⟩])
termination_by sizeOf fann

/-- The loop `for annotation in _iter_union(obj.annotation)`: recurse into
every union member that is a Pydantic model, in declaration order. -/
def collectUnionArgs (args : List PType) (parents : List Str)
    (parseDoc : Bool) (unpack : Bool) : Except Str (List PydField) :=
  match args with
  | [] => .ok []
  | a :: rest => do
    let head ← (match a with
      | .tModel docs fields => collectFieldList fields docs parents parseDoc unpack
      | _ => .ok [])
    let tail ← collectUnionArgs rest parents parseDoc unpack
    .ok (head ++ tail)
termination_by sizeOf args

end

/-- The top-level call `_collect_fields(obj, ...)` on a model class (the
`TypeError` branch fires on anything else).  The `name` argument of the
recursion starts out empty. -/
def collectFieldsRaw (obj : PType) (parseDoc : Bool) (unpack : Bool) :
    Except Str (List PydField) :=
  match obj with
  | .tModel docs fields => collectFieldList fields docs [] parseDoc unpack
  | _ => .error "TypeError".toList

/-- `collect_fields` of `field_collection.py`: collect all fields, then drop
those whose dotted name matches the excluded pattern.  (When
`excluded_fields` is empty the source skips the filter; `matchesExcluded []`
is constantly `false`, so filtering is equivalent.) -/
def collect_fields (obj : PType) (excluded_fields : List Str) (parseDoc : Bool)
    (unpack : Bool) : Except Str (List PydField) :=
  (collectFieldsRaw obj parseDoc unpack).map
    (fun fs => fs.filter (fun f => !(matchesExcluded excluded_fields f.dotted_name)))

/-- Well-formedness of one field name: nonempty and made of `\w` characters
(Python identifiers satisfy this). -/
def wfName (s : Str) : Bool :=
  !s.isEmpty && s.all wordCharB

mutual

/-- Well-formedness of a type hint: every model reachable inside it has
well-formed, pairwise-distinct field names. -/
def wfType : PType → Bool
  | .tModel _ fields => wfFields fields
  | .tList e => wfType e
  | .tUnion args => wfUnion args
  | _ => true
termination_by t => sizeOf t

/-- Well-formedness of a field declaration list. -/
def wfFields : List PFieldDecl → Bool
  | [] => true
  | (n, ann, _, _, _) :: rest =>
    wfName n && wfType ann && !(rest.any (fun d => d.1 = n)) && wfFields rest
termination_by fields => sizeOf fields

/-- Well-formedness of the members of a union. -/
def wfUnion : List PType → Bool
  | [] => true
  | a :: rest => wfType a && wfUnion rest
termination_by args => sizeOf args

end

mutual

/-- No union reachable inside the type has a Pydantic model among its
members (the restriction under which dotted names are collision-free). -/
def noModelUnionT : PType → Bool
  | .tModel _ fields => noModelUnionFields fields
  | .tList e => noModelUnionT e
  | .tUnion args => noModelUnionArgs args
  | _ => true
termination_by t => sizeOf t

/-- `noModelUnionT` over a field declaration list. -/
def noModelUnionFields : List PFieldDecl → Bool
  | [] => true
  | (_, ann, _, _, _) :: rest => noModelUnionT ann && noModelUnionFields rest
termination_by fields => sizeOf fields

/-- Union members contain no model, and are themselves model-union free. -/
def noModelUnionArgs : List PType → Bool
  | [] => true
  | a :: rest =>
    (match a with
     | .tModel _ _ => false
     | _ => true) && noModelUnionT a && noModelUnionArgs rest
termination_by args => sizeOf args

end

/-- Follows the spec's words (section 4.1): the declared leaf chains of a
model, in depth-first declaration order; a field whose type is itself a model
contributes its sub-chains extended with the field name, any other field is a
single leaf.  Used as the reference enumeration for the order-and-uniqueness
claim; compared against the collector on union-free models. -/
def specLeafChains : List PFieldDecl → List (List Str)
  | [] => []
  | (n, ann, _, _, _) :: rest =>
    (match ann with
     | .tModel _ subfields => (specLeafChains subfields).map (fun c => n :: c)
     | _ => [[n]]) ++ specLeafChains rest
termination_by fields => sizeOf fields
decreasing_by
  all_goals simp
  all_goals omega

/-- Follows the spec's words: the leaf chains contributed by one field with
annotation `ann` whose chain position is `parents` (which already ends with
the field's own name): a model field contributes its sub-chains extended to
the left, any other field is a single leaf at `parents`. -/
def specChainsT (ann : PType) (parents : List Str) : List (List Str) :=
  match ann with
  | .tModel _ sub => (specLeafChains sub).map (fun c => parents ++ c)
  | _ => [parents]

/-- The field declarations of a model type (empty for non-models). -/
def fieldsOf (m : PType) : List PFieldDecl :=
  match m with
  | .tModel _ fields => fields
  | _ => []

/-- `snake_case_to_kebab_case` of `utils.py`:
`name.lower().replace("_", "-").replace(".", "-")`. -/
def snake_case_to_kebab_case (s : Str) : Str :=
  ((s.map Char.toLower).map (fun c => if c = '_' then '-' else c)).map
    (fun c => if c = '.' then '-' else c)

/-- `kebab_case_to_snake_case` of `utils.py`: `name.replace("-", "_")`. -/
def kebab_case_to_snake_case (s : Str) : Str :=
  s.map (fun c => if c = '-' then '_' else c)

/-- `strip_option_name` of `utils.py`: strip leading and trailing dashes. -/
def strip_option_name (s : Str) : Str :=
  ((s.dropWhile (fun c => c = '-')).reverse.dropWhile (fun c => c = '-')).reverse

/-- The Click parameter types produced by `type_conversion.py`.  `custom` is
the JSON-fallback type minted by `_create_custom_type` (it keeps the field
annotation it was built from); `pydanclick` is the `PydanclickParamType`
wrapper installed by `_get_pydanclick_type`.  Range bounds are kept as
integers. -/
inductive ClickType : Type where
  | string
  | intT
  | floatT
  | boolT
  | intRange (min max : Option Int) (minOpen maxOpen : Bool)
  | floatRange (min max : Option Int) (minOpen maxOpen : Bool)
  | choice (choices : List Str)
  | custom (ann : PType)
  | pydanclick (actual : ClickType)

/-- The `_RangeDict` of `type_conversion.py`: a partial dict of arguments to
`IntRange`/`FloatRange`; `none` models an absent key. -/
structure RangeDict where
  min : Option Int := none
  max : Option Int := none
  minOpen : Option Bool := none
  maxOpen : Option Bool := none

/-- Python truthiness of the `_RangeDict` (`if range_args:`). -/
def RangeDict.isEmptyDict (r : RangeDict) : Bool :=
  r.min.isNone && r.max.isNone && r.minOpen.isNone && r.maxOpen.isNone

/-- `_get_range_from_metadata`: scan the constraints in order, later entries
overwriting earlier ones. -/
def get_range_from_metadata (metadata : List NumConstraint) : RangeDict :=
  metadata.foldl
    (fun r c =>
      match c with
      | .le n => { r with max := some n, maxOpen := some false }
      | .lt n => { r with max := some n, maxOpen := some true }
      | .ge n => { r with min := some n, minOpen := some false }
      | .gt n => { r with min := some n, minOpen := some true })
    {}

/-- Python `typing.get_args`, for the shapes the code inspects (union members
and list element).  `Literal` arguments are strings, not types, hence empty
here; `_get_click_type_from_field` reads them from `tLiteral` directly. -/
def getArgs (t : PType) : List PType :=
  match t with
  | .tUnion args => args
  | .tList e => [e]
  | _ => []

/-- Whether a type hint is a `Union[...]` (`get_origin(...) is Union`). -/
def isUnionT (t : PType) : Bool :=
  match t with
  | .tUnion _ => true
  | _ => false

/-- Whether a type hint is `NoneType`. -/
def isNoneT (t : PType) : Bool :=
  match t with
  | .tNone => true
  | _ => false

/-- `_get_numerical_type`: `click.INT`/`click.FLOAT`, range variants when
constraints are present.  The int test is
`field.annotation is int or int in get_args(field.annotation)` on the
original annotation. -/
def get_numerical_type (fi : FieldInfo) : ClickType :=
  let r := get_range_from_metadata fi.metadata
  let isInt := (match fi.ann with
    | .tInt => true
    | _ => false) || (getArgs fi.ann).any (fun a => match a with
    | .tInt => true
    | _ => false)
  if isInt then
    if !r.isEmptyDict then .intRange r.min r.max (r.minOpen.getD false) (r.maxOpen.getD false)
    else .intT
  else
    if !r.isEmptyDict then .floatRange r.min r.max (r.minOpen.getD false) (r.maxOpen.getD false)
    else .floatT

/-- `_create_custom_type`: the JSON-fallback Click type for a field; it keeps
the annotation (the synthesized display name is derived from it). -/
def create_custom_type (fi : FieldInfo) : ClickType :=
  .custom fi.ann

/-- `_get_click_type_from_field`: optional-collapse then the `elif` chain.
The collapse condition requires a two-member union containing `NoneType` and
`field.default is not PydanticUndefined`; only an explicit default value
(`.value`) satisfies it, since a field with only a default factory keeps
`field.default` at `PydanticUndefined`.  The collapsed type is the first
union member (the generator `next(a for a in field_args if a is not None)`
accepts every type object, `NoneType` included).  The `Literal` test reads
`get_origin`/`get_args` of the original annotation. -/
def get_click_type_from_field (fi : FieldInfo) : ClickType :=
  let fieldArgs := getArgs fi.ann
  let collapse := isUnionT fi.ann && decide (fieldArgs.length = 2) && fieldArgs.any isNoneT &&
    (match fi.dflt with
     | .value _ => true
     | _ => false)
  let fieldType := if collapse then fieldArgs.headD fi.ann else fi.ann
  match fieldType with
  | .tStr => .string
  | .tInt => get_numerical_type fi
  | .tFloat => get_numerical_type fi
  | .tBool => .boolT
  | _ =>
    match fi.ann with
    | .tLiteral choices => .choice choices
    | _ => create_custom_type fi

/-- `_get_type_from_field`: wrap the Click type in `PydanclickParamType`. -/
def get_type_from_field (fi : FieldInfo) : ClickType :=
  .pydanclick (get_click_type_from_field fi)

/-- Whether a value is a `PydanclickDefault` instance (including the callable
subclass). -/
def isPydanclickDefault (v : Value) : Bool :=
  match v with
  | .vDefault _ => true
  | _ => false

/-- Whether a value is Python `None`. -/
def isNoneV (v : Value) : Bool :=
  match v with
  | .vNone => true
  | _ => false

/-- Decimal digit characters. -/
def digitChar (d : Nat) : Char :=
  match d with
  | 0 => '0' | 1 => '1' | 2 => '2' | 3 => '3' | 4 => '4'
  | 5 => '5' | 6 => '6' | 7 => '7' | 8 => '8' | _ => '9'

/-- Numeric value of a digit character. -/
def digitVal (c : Char) : Nat :=
  c.toNat - 48

/-- Modelled from the spec: Python `int(string)` on a plain decimal numeral
(digits only), the parsing performed by Click's integer parameter type. -/
def parseNatDigits (s : Str) : Option Nat :=
  if !s.isEmpty && s.all Char.isDigit then
    some (Nat.ofDigits 10 ((s.map digitVal).reverse))
  else none

/-- Modelled from the spec: signed decimal parsing for `int(string)`. -/
def parseIntStr (s : Str) : Option Int :=
  match s with
  | '-' :: rest => (parseNatDigits rest).map (fun n => -(n : Int))
  | '+' :: rest => (parseNatDigits rest).map (fun n => (n : Int))
  | _ => (parseNatDigits s).map (fun n => (n : Int))

/-- Decimal rendering of a natural number, as Python `str`. -/
def natToDigitsStr (n : Nat) : Str :=
  if n = 0 then ['0'] else ((Nat.digits 10 n).map digitChar).reverse

/-- Decimal rendering of an integer, as Python `str`. -/
def renderInt (n : Int) : Str :=
  if n < 0 then '-' :: natToDigitsStr n.natAbs else natToDigitsStr n.natAbs

/-- The command-line string rendering of a scalar value (the string a user
would type for it on the command line). -/
def renderValue : Value → Str
  | .vStr s => s
  | .vInt n => renderInt n
  | .vBool b => if b then "true".toList else "false".toList
  | _ => []

/-- Python `s.lower()`. -/
def lowerStr (s : Str) : Str :=
  s.map Char.toLower

/-- Modelled from the spec: the truthy tokens accepted by the boolean parser
(`true/yes/1/on` and friends, lowercased). -/
def boolTruthy : List Str :=
  ["1".toList, "true".toList, "t".toList, "yes".toList, "y".toList, "on".toList]

/-- Modelled from the spec: the falsy tokens accepted by the boolean parser. -/
def boolFalsy : List Str :=
  ["0".toList, "false".toList, "f".toList, "no".toList, "n".toList, "off".toList]

/-- The range check of Click's `IntRange.convert` (with `clamp=False`): fail
when the value violates an open or closed bound. -/
def rangeAccepts (min max : Option Int) (minOpen maxOpen : Bool) (n : Int) : Bool :=
  (match min with
   | some b => if minOpen then decide (b < n) else decide (b ≤ n)
   | none => true) &&
  (match max with
   | some b => if maxOpen then decide (n < b) else decide (n ≤ b)
   | none => true)

/-- Parser semantics of the Click parameter types.  The `pydanclick` case is
the translation of `PydanclickParamType.convert` in `type_conversion.py`
(`return None` on a `PydanclickDefault`, delegate otherwise); the base cases
are Modelled from the spec: section 4.2 specifies the identity string parser,
the range-aware numeric parser, the truthy/falsy boolean parser and the
closed-choice parser of the external option registry.  Float parsing and JSON
decoding for the fallback type are outside the embedded value universe; no
claim depends on them. -/
def convertClick : ClickType → Value → Except Str Value
  | .pydanclick actual, v =>
    if isPydanclickDefault v then .ok .vNone else convertClick actual v
  | .string, v => .ok v
  | .intT, v =>
    (match v with
     | .vStr s =>
       (match parseIntStr s with
        | some n => .ok (.vInt n)
        | none => .error "BadParameter".toList)
     | .vInt n => .ok (.vInt n)
     | _ => .error "BadParameter".toList)
  | .intRange min max minOpen maxOpen, v =>
    (match (match v with
            | .vStr s => parseIntStr s
            | .vInt n => some n
            | _ => none) with
     | some n =>
       if rangeAccepts min max minOpen maxOpen n then .ok (.vInt n)
       else .error "BadParameter: not in the range".toList
     | none => .error "BadParameter".toList)
  | .boolT, v =>
    (match v with
     | .vBool b => .ok (.vBool b)
     | .vStr s =>
       if boolTruthy.contains (lowerStr s) then .ok (.vBool true)
       else if boolFalsy.contains (lowerStr s) then .ok (.vBool false)
       else .error "BadParameter".toList
     | _ => .error "BadParameter".toList)
  | .choice choices, v =>
    (match v with
     | .vStr s => if choices.contains s then .ok (.vStr s) else .error "BadParameter".toList
     | _ => .error "BadParameter".toList)
  | .floatT, v => .ok v
  | .floatRange _ _ _ _, v => .ok v
  | .custom _, v => .ok v

/-- `FieldInfo.is_required()` in Pydantic: no default value and no default
factory. -/
def is_required (fi : FieldInfo) : Bool :=
  match fi.dflt with
  | .undef => true
  | _ => false

/-- `_get_default_value_from_field` of `field_conversion.py`: wrap an
explicit default in `PydanclickDefault`, a factory in
`PydanclickDefaultCallable`; an explicit `None` default and an absent default
both yield `None`. -/
def get_default_value_from_field (fi : FieldInfo) : Value :=
  match fi.dflt with
  | .value .vNone => .vNone
  | .value v => .vDefault v
  | .factory v => .vDefault v
  | .undef => .vNone

/-- The `_ParameterKwargs` dict of `types.py`, restricted to the keys the
converter writes; `none` models an absent key. -/
structure ParamKwargs where
  typeK : Option ClickType := none
  defaultK : Option Value := none
  requiredK : Option Bool := none
  helpK : Option (Option Str) := none
  multipleK : Option Bool := none

/-- Python `kwargs.update(option_kwargs)`: keys present in the patch
overwrite the base. -/
def updateKwargs (base patch : ParamKwargs) : ParamKwargs where
  typeK := patch.typeK.orElse (fun _ => base.typeK)
  defaultK := patch.defaultK.orElse (fun _ => base.defaultK)
  requiredK := patch.requiredK.orElse (fun _ => base.requiredK)
  helpK := patch.helpK.orElse (fun _ => base.helpK)
  multipleK := patch.multipleK.orElse (fun _ => base.multipleK)

/-- A constructed `click.Option`: the first two param declarations (argument
name and option name), the optional short name, and the keyword arguments the
converter passes. -/
structure ClickOption where
  argument_name : Str
  option_name : Str
  short_name : Option Str
  typeO : ClickType
  defaultO : Value
  required : Bool
  help : Option Str
  multiple : Bool

/-- `_get_option_from_field` of `field_conversion.py`: build the keyword
arguments, merge the per-field extra options over them, and construct the
option.  `required` is `field_info.is_required()`; the default is the
(wrapped) field default, or the empty list for a multiple option. -/
def get_option_from_field (argument_name : Str) (option_name : Str) (fi : FieldInfo)
    (documentation : Option Str) (short_name : Option Str) (option_kwargs : ParamKwargs)
    (multiple : Bool) : ClickOption :=
  let kwargs : ParamKwargs :=
    { typeK := some (get_type_from_field fi)
      defaultK := some (if !multiple then get_default_value_from_field fi else .vList [])
      requiredK := some (is_required fi)
      helpK := some documentation
      multipleK := some multiple }
  let kwargs := updateKwargs kwargs option_kwargs
  { argument_name := argument_name
    option_name := option_name
    short_name := short_name
    typeO := kwargs.typeK.getD .string
    defaultO := kwargs.defaultK.getD .vNone
    required := kwargs.requiredK.getD false
    help := kwargs.helpK.getD none
    multiple := kwargs.multipleK.getD false }

/-- `_convert_to_valid_prefix`: normalize a user-supplied option name or
option name piece to `--` plus its dash-stripped core. -/
def convert_to_valid_prefix (name : Str) : Str :=
  if name = [] then name else '-' :: '-' :: strip_option_name name

/-- The countdown loop of `_get_base_option_name`
(`for i in range(len(parents) + 1, 0, -1)`), with `go i` standing for the
iterations `i, i-1, ..., 1` followed by the fallback.  An alias bound to a
falsy (empty) string is skipped like a missing one. -/
def baseOptionNameGo (parents : List Str) (aliases : List (Str × Str)) (pfx : Str)
    (dotted : Str) : Nat → Except Str Str
  | 0 =>
    if pfx ≠ [] then .ok (snake_case_to_kebab_case (joinSep '-' (pfx :: parents)))
    else .ok ('-' :: '-' :: snake_case_to_kebab_case dotted)
  | i + 1 =>
    match alookup aliases (joinDots (parents.take (i + 1))) with
    | some al =>
      if al = [] then baseOptionNameGo parents aliases pfx dotted i
      else
        let suffix := snake_case_to_kebab_case (joinSep '-' (parents.drop (i + 1)))
        if suffix ≠ [] then
          if al.contains '/' then .error "ValueError: invalid boolean alias".toList
          else .ok (al ++ '-' :: suffix)
        else .ok al
    | none => baseOptionNameGo parents aliases pfx dotted i

/-- `_get_base_option_name` of `field_conversion.py`. -/
def get_base_option_name (dotted : Str) (aliases : List (Str × Str)) (pfx : Str) :
    Except Str Str :=
  let parents := splitOnChar '.' dotted
  baseOptionNameGo parents aliases pfx dotted (parents.length + 1)

/-- `get_option_name` of `field_conversion.py`: resolve the base name, then
turn it into the dual boolean form (base name, slash, no-prefixed base name)
for boolean fields unless it already contains a slash. -/
def get_option_name (dotted : Str) (aliases : List (Str × Str)) (isBoolean : Bool)
    (pfx : Str) : Except Str Str := do
  let baseName ← get_base_option_name dotted aliases pfx
  if !isBoolean || baseName.contains '/' then
    .ok baseName
  else
    let b := if baseName.take 2 = ['-', '-'] then baseName.drop 2 else baseName
    .ok ('-' :: '-' :: b ++ '/' :: '-' :: '-' :: 'n' :: 'o' :: '-' :: b)

/-- Python `a or b` on optional strings: the left operand wins when truthy
(non-`None` and nonempty). -/
def orTruthy (a b : Option Str) : Option Str :=
  match a with
  | some s => if s ≠ [] then some s else b
  | none => b

/-- The per-field loop body of `convert_fields_to_options`, returning the
`(qualified_names, options)` pair accumulated in field order.
`qualified_names` is kept as an association list in insertion order. -/
def convertFieldsGo (fields : List PydField) (aliases : List (Str × Str))
    (shorten : List (Str × Str)) (extra : List (Str × ParamKwargs)) (optionPfx : Str)
    (argumentPfx : Str) : Except Str (List (Str × Str) × List ClickOption) :=
  match fields with
  | [] => .ok ([], [])
  | f :: rest => do
    let argument_name := argumentPfx ++ joinSep '_' f.parents
    let oname ← get_option_name f.dotted_name aliases f.is_boolean_flag optionPfx
    let opt := get_option_from_field argument_name oname f.field_info
      (orTruthy f.field_info.description f.documentation)
      (alookup shorten f.dotted_name)
      ((alookup extra f.dotted_name).getD {})
      f.multiple
    let (qtail, otail) ← convertFieldsGo rest aliases shorten extra optionPfx argumentPfx
    .ok ((argument_name, f.dotted_name) :: qtail, opt :: otail)

/-- `convert_fields_to_options` of `field_conversion.py`.  The
`PydanticUserError`/`ignore_unsupported` catch never fires in the embedded
type universe (every embedded annotation is convertible), so the
`ignore_unsupported` flag is accepted but has no effect. -/
def convert_fields_to_options (fields : List PydField) (pfx? : Option Str)
    (aliases : List (Str × Str)) (shorten : List (Str × Str))
    (extra : List (Str × ParamKwargs)) (_iu : Bool := false) :
    Except Str (List (Str × Str) × List ClickOption) :=
  let aliases := aliases.map (fun kv => (kv.1, convert_to_valid_prefix kv.2))
  let optionPfx := match pfx? with
    | some p => convert_to_valid_prefix p
    | none => []
  let argumentPfx :=
    if optionPfx ≠ [] then kebab_case_to_snake_case (strip_option_name optionPfx) ++ ['_']
    else []
  convertFieldsGo fields aliases shorten extra optionPfx argumentPfx

/-- `_parse_options` of `validation.py`.  Python iterates over the unordered
set `aliases.keys() & kwargs.keys()`, popping each shared key from `kwargs`
and keeping the non-`None` values; we enumerate that set in `kwargs` order.
The function returns both the parsed mapping and the state of `kwargs` after
the pops (the source mutates its argument in place). -/
def parse_options (aliases : List (Str × Str)) (kwargs : List (Str × Value)) :
    List (Str × Value) × List (Str × Value) :=
  (kwargs.filterMap (fun kv =>
      match alookup aliases kv.1 with
      | some dotted => if isNoneV kv.2 then none else some (dotted, kv.2)
      | none => none),
   kwargs.filter (fun kv => (alookup aliases kv.1).isNone))

/-- One `current_dict.setdefault(...)` walk of `_unflatten_dict`, inserting
`v` at the path `parts`.  Taking `setdefault` or indexing on a non-dict value
raises in Python and becomes an `Except.error`; `parts` is the nonempty
output of `str.split`. -/
def insertPath (d : List (Str × Value)) (parts : List Str) (v : Value) :
    Except Str (List (Str × Value)) :=
  match parts with
  | [] => .error "unreachable: str.split returns a nonempty list".toList
  | [last] => .ok (dictSet d last v)
  | p :: rest =>
    match alookup d p with
    | some (.vDict sub) => do
      let sub' ← insertPath sub rest v
      .ok (dictSet d p (.vDict sub'))
    | some _ => .error "TypeError: intermediate value is not a dict".toList
    | none => do
      let sub' ← insertPath [] rest v
      .ok (d ++ [(p, .vDict sub')])

/-- The item loop of `_unflatten_dict`, threading the nested dict. -/
def unflattenGo (items : List (Str × Value)) (nested : List (Str × Value)) :
    Except Str (List (Str × Value)) :=
  match items with
  | [] => .ok nested
  | (k, v) :: rest =>
    if k = [] then .error "Empty keys are not supported".toList
    else do
      let nested' ← insertPath nested (splitOnChar '.' k) v
      unflattenGo rest nested'

/-- `_unflatten_dict` of `validation.py` (with the default separator). -/
def unflatten_dict (d : List (Str × Value)) : Except Str (List (Str × Value)) :=
  unflattenGo d []

/-- The row-by-row behaviour of `itertools.zip_longest`: emit a row of
optional heads while some column is nonempty (`none` standing for the
`unset` fill value). -/
def zipLongestO {V : Type} (cols : List (List V)) : List (List (Option V)) :=
  if cols.any (fun c => !c.isEmpty) then
    cols.map List.head? :: zipLongestO (cols.map List.tail)
  else []
termination_by (cols.map List.length).sum
decreasing_by
  rename_i h
  simp only [List.map_map]
  refine List.sum_lt_sum _ _ (fun c _ => ?_) ?_
  · simp only [Function.comp_apply, List.length_tail]
    omega
  · obtain ⟨c, hc, hne⟩ := List.any_eq_true.mp h
    refine ⟨c, hc, ?_⟩
    cases c
    · simp at hne
    · simp [Function.comp_apply]

/-- `_pack_dict` of `validation.py`: transpose a dict of columns into a list
of row dicts, dropping the `unset` padding entries of each row. -/
def pack_dict {K V : Type} (d : List (K × List V)) : List (List (K × V)) :=
  (zipLongestO (d.map Prod.snd)).map
    (fun row => ((d.map Prod.fst).zip row).filterMap (fun kv => kv.2.map (fun v => (kv.1, v))))

/-- Columns of an unpacked nested value: every child entry must be a list
(Click produced a tuple of occurrences for each multiple option). -/
def extractCols : List (Str × Value) → Except Str (List (Str × List Value))
  | [] => .ok []
  | (k, .vList xs) :: rest => do
    let r ← extractCols rest
    .ok ((k, xs) :: r)
  | (_, _) :: _ => .error "TypeError: zip_longest expects iterables".toList

/-- One iteration of the unpack loop of `model_validate_kwargs`: re-group the
column dict found at `name` into rows, deleting the key when the result is
empty (an empty list is indistinguishable from an absent one). -/
def applyUnpackOne (raw : List (Str × Value)) (name : Str) :
    Except Str (List (Str × Value)) :=
  match alookup raw name with
  | none => .ok raw
  | some (.vDict cols) => do
    let cols' ← extractCols cols
    let packed := (pack_dict cols').map Value.vDict
    if packed.isEmpty then .ok (dictRemove raw name)
    else .ok (dictSet raw name (.vList packed))
  | some _ => .error "TypeError: unpacked value is not a dict".toList

/-- The loop `for name in unpacked_names & raw_model.keys()` (the set is
enumerated in the order of the `unpacked_names` list; `applyUnpackOne` skips
names absent from `raw`). -/
def applyUnpack (names : List Str) (raw : List (Str × Value)) :
    Except Str (List (Str × Value)) :=
  match names with
  | [] => .ok raw
  | n :: rest => do
    let raw' ← applyUnpackOne raw n
    applyUnpack rest raw'

/-- `model_validate_kwargs` of `validation.py`.  The external
`model.model_validate` call is taken as the parameter `validate` (the schema
engine's validating constructor).  The second component of the result is the
caller-visible state of `kwargs` after the call (the source pops consumed
keys from it in place). -/
def model_validate_kwargs {α : Type} (validate : List (Str × Value) → Except Str α)
    (kwargs : List (Str × Value)) (qualified_names : List (Str × Str))
    (unpacked_names : List Str) : Except Str α × List (Str × Value) :=
  let pr := parse_options qualified_names kwargs
  ((do
    let raw ← unflatten_dict pr.1
    let raw ← applyUnpack unpacked_names raw
    validate raw),
   pr.2)

/-- `convert_to_click` of `model_conversion.py`: collect the fields, convert
them to options, and return the options together with the data captured by
the returned validator closure (`functools.partial(model_validate_kwargs,
model=..., qualified_names=..., unpacked_names=...)`): the argument-name to
dotted-name mapping and the deduplicated set of unpacked dotted names. -/
def convert_to_click (model : PType) (exclude : List Str) (rename : List (Str × Str))
    (shorten : List (Str × Str)) (pfx? : Option Str) (parseDoc : Bool)
    (extra : List (Str × ParamKwargs)) (unpack : Bool) :
    Except Str (List ClickOption × List (Str × Str) × List Str) := do
  let fields ← collect_fields model exclude parseDoc unpack
  let (qualified_names, options) ← convert_fields_to_options fields pfx? rename shorten extra
  let unpacked_names := (fields.filterMap (fun f => f.unpacked_from)).eraseDups
  .ok (options, qualified_names, unpacked_names)

/-- Whether an integer satisfies a numeric constraint. -/
def satisfiesConstraint (c : NumConstraint) (n : Int) : Bool :=
  match c with
  | .ge b => decide (b ≤ n)
  | .gt b => decide (b < n)
  | .le b => decide (n ≤ b)
  | .lt b => decide (n < b)

/-- Modelled from the spec: acceptance of a raw value for one scalar leaf
field by the schema engine (exact type match plus the declared numeric
constraints; section 6 specifies `validatingConstruct` only through its
validated-instance-or-error contract). -/
def acceptsScalar (ann : PType) (metadata : List NumConstraint) (v : Value) : Bool :=
  match ann, v with
  | .tStr, .vStr _ => true
  | .tBool, .vBool _ => true
  | .tInt, .vInt n => metadata.all (fun c => satisfiesConstraint c n)
  | _, _ => false

/-- Field-by-field validation for `modelValidateFlat`. -/
def modelValidateFlatGo (raw : List (Str × Value)) :
    List PFieldDecl → Except Str (List (Str × Value))
  | [] => .ok []
  | (fname, fann, fdflt, fmeta, _) :: rest => do
    let v ← (match alookup raw fname with
      | some v =>
        if acceptsScalar fann fmeta v then Except.ok v
        else Except.error "ValidationError".toList
      | none =>
        (match fdflt with
         | .value v => Except.ok v
         | .factory v => Except.ok v
         | .undef => Except.error "ValidationError: field required".toList))
    let tail ← modelValidateFlatGo raw rest
    .ok ((fname, v) :: tail)

/-- Modelled from the spec: the schema engine's validating constructor
(`model.model_validate`) for a model whose fields are all scalar leaves: each
field takes its (type-correct) raw value when present, its default otherwise,
and a missing required field is a validation error.  The instance is the
dict of field values. -/
def modelValidateFlat (fields : List PFieldDecl) (raw : List (Str × Value)) :
    Except Str Value := do
  let entries ← modelValidateFlatGo raw fields
  .ok (.vDict entries)

/-- Simulated registry parsing for the round-trip claim: for every produced
option, apply the option's parser to the command-line string rendering of
the value assigned to the option's field (found through the argument-name to
dotted-name mapping), producing the raw keyword mapping Click would hand to
the validator. -/
def simulateKwargs (options : List ClickOption) (qualified_names : List (Str × Str))
    (vals : Str → Value) : Except Str (List (Str × Value)) :=
  match options with
  | [] => .ok []
  | o :: rest => do
    let dotted := (alookup qualified_names o.argument_name).getD []
    let parsed ← convertClick o.typeO (.vStr (renderValue (vals dotted)))
    let tail ← simulateKwargs rest qualified_names vals
    .ok ((o.argument_name, parsed) :: tail)

/-- The round-trip experiment of the spec: convert a model to options with
default settings (no exclusions, renames, shortening, or unpacking), simulate
registry parsing of the rendered field values, and assemble the result with
the returned validator. -/
def round_trip (model : PType) (vals : Str → Value) : Except Str Value := do
  let (options, qualified_names, unpacked_names) ←
    convert_to_click model [] [] [] none true [] false
  let kwargs ← simulateKwargs options qualified_names vals
  (model_validate_kwargs (modelValidateFlat (fieldsOf model)) kwargs qualified_names
    unpacked_names).1

/-- Direct construction of a flat model instance from the same values. -/
def directInstance (fields : List PFieldDecl) (vals : Str → Value) : Value :=
  .vDict (fields.map (fun fd => (fd.1, vals fd.1)))

/-- The option name `get_option_name` produces when there are no aliases and
no user prefix: two dashes plus the kebab-cased dotted name, doubled into the
dual boolean form (with a no-variant) for boolean flags. -/
def noAliasOptionName (dotted : Str) (isB : Bool) : Str :=
  let baseName := '-' :: '-' :: snake_case_to_kebab_case dotted
  if !isB || baseName.contains '/' then baseName
  else
    let b := if baseName.take 2 = ['-', '-'] then baseName.drop 2 else baseName
    '-' :: '-' :: b ++ '/' :: '-' :: '-' :: 'n' :: 'o' :: '-' :: b

/-- The descriptor `_collect_fields` produces for one scalar leaf field at
the top level of a model (docstring parsing on). -/
def leafOf (docs : List (Str × Str)) (fd : PFieldDecl) : PydField :=
  ⟨fd.1, fd.1, ⟨fd.2.1, fd.2.2.1, fd.2.2.2.1, fd.2.2.2.2⟩, alookup docs fd.1, [fd.1], none⟩

/-- The `click.Option` produced for a scalar leaf descriptor under default
settings (no aliases, no user prefix, no shortening, no extra options). -/
def optLeaf (f : PydField) : ClickOption :=
  { argument_name := f.name
    option_name := noAliasOptionName f.dotted_name f.is_boolean_flag
    short_name := none
    typeO := get_type_from_field f.field_info
    defaultO := get_default_value_from_field f.field_info
    required := is_required f.field_info
    help := orTruthy f.field_info.description f.documentation
    multiple := false }

/-- The step function of the `_get_range_from_metadata` fold. -/
def rangeStep (r : RangeDict) (c : NumConstraint) : RangeDict :=
  match c with
  | .le n => { r with max := some n, maxOpen := some false }
  | .lt n => { r with max := some n, maxOpen := some true }
  | .ge n => { r with min := some n, minOpen := some false }
  | .gt n => { r with min := some n, minOpen := some true }

/-- Concrete values for the round-trip witness on `mFoo`. -/
def mFlatVals : Str → Value :=
  fun n => if n = "a".toList then Value.vInt 5 else Value.vBool false

/-- The `__pydanclick__` payload of a model after normalization
(`PydanclickConfig.model_dump(exclude_unset=True)` or the plain dict):
a partial mapping, `none` modelling an absent key. -/
structure ConfigPatch where
  exclude : Option (List Str) := none
  rename : Option (List (Str × Str)) := none
  shorten : Option (List (Str × Str)) := none
  pfx : Option (Option Str) := none
  parse_docstring : Option Bool := none
  docstring_style : Option Str := none
  extra_options : Option (List (Str × ParamKwargs)) := none

/-- The validated `_Config` of `config.py`, with its field defaults. -/
structure ResolvedConfig where
  exclude : List Str := []
  aliases : Option (List (Str × Str)) := none
  shorten : Option (List (Str × Str)) := none
  pfx : Option Str := none
  parse_docstring : Bool := true
  docstring_style : Str := "google".toList
  extra_options : Option (List (Str × ParamKwargs)) := none

/-- Python `{**default_options, **overriding_options}` followed by
`_Config.model_validate`: per key, the overriding value if present, else the
model-level value, else the `_Config` default. -/
def mergeConfig (dflts overriding : ConfigPatch) : ResolvedConfig where
  exclude := (overriding.exclude.orElse (fun _ => dflts.exclude)).getD []
  aliases := overriding.rename.orElse (fun _ => dflts.rename)
  shorten := overriding.shorten.orElse (fun _ => dflts.shorten)
  pfx := (overriding.pfx.orElse (fun _ => dflts.pfx)).getD none
  parse_docstring := (overriding.parse_docstring.orElse (fun _ => dflts.parse_docstring)).getD true
  docstring_style := (overriding.docstring_style.orElse (fun _ => dflts.docstring_style)).getD "google".toList
  extra_options := overriding.extra_options.orElse (fun _ => dflts.extra_options)

/-- `get_config` of `config.py`.  `modelAttr` is the model's `__pydanclick__`
attribute (`none` when absent, in which case `default_options` is the empty
dict).  Call-site keyword arguments enter `overriding_options` when they are
not `None` (`exclude`: when nonempty); `docstring_style` enters only when the
model-level dict does not define one. -/
def get_config (modelAttr : Option ConfigPatch) (exclude : List Str)
    (rename : Option (List (Str × Str))) (shorten : Option (List (Str × Str)))
    (pfx : Option Str) (parse_docstring : Option Bool) (docstring_style : Str)
    (extra_options : Option (List (Str × ParamKwargs))) : ResolvedConfig :=
  let default_options := modelAttr.getD {}
  let overriding : ConfigPatch :=
    { rename := rename
      shorten := shorten
      pfx := pfx.map some
      parse_docstring := parse_docstring
      extra_options := extra_options
      exclude := if exclude.isEmpty then none else some exclude
      docstring_style :=
        if default_options.docstring_style.isNone then some docstring_style else none }
  mergeConfig default_options overriding

/-- The model `Foo` of the test fixtures: `a: int = 1`, `b: bool = True`. -/
def mFoo : PType :=
  .tModel [] [("a".toList, .tInt, .value (.vInt 1), [], none),
              ("b".toList, .tBool, .value (.vBool true), [], none)]

/-- A model with a required int child: `a: int`, `b: bool = True`. -/
def mFooReq : PType :=
  .tModel [] [("a".toList, .tInt, .undef, [], none),
              ("b".toList, .tBool, .value (.vBool true), [], none)]

/-- `foos: list[FooReq]` (a list of models with a required child), the
unpack counterexample model. -/
def mFoosReq : PType :=
  .tModel [] [("foos".toList, .tList mFooReq, .undef, [], none)]

/-- Two distinct models sharing the field name `a`. -/
def mBarA : PType :=
  .tModel [] [("a".toList, .tStr, .undef, [], none)]

/-- A model whose field `f` is a union of two models that share a field
name: collection yields the dotted name `f.a` twice. -/
def mUnionClash : PType :=
  .tModel [] [("f".toList, .tUnion [mFooReq, mBarA], .undef, [], none)]

/-- A nested model: `foo: Foo` (with defaults) and `c: str`. -/
def mNest : PType :=
  .tModel [] [("foo".toList, mFoo, .factory (.vDict []), [], none),
              ("c".toList, .tStr, .value (.vStr []), [], none)]

/-- The descriptors collected from `mNest` with no exclusions and default
settings. -/
def mNestFields : List PydField :=
  [⟨"a".toList, "foo.a".toList, ⟨PType.tInt, PDefault.value (Value.vInt 1), [], none⟩,
    none, ["foo".toList, "a".toList], none⟩,
   ⟨"b".toList, "foo.b".toList, ⟨PType.tBool, PDefault.value (Value.vBool true), [], none⟩,
    none, ["foo".toList, "b".toList], none⟩,
   ⟨"c".toList, "c".toList, ⟨PType.tStr, PDefault.value (Value.vStr []), [], none⟩,
    none, ["c".toList], none⟩]

/-- Folding `max` over a list after subtracting one everywhere subtracts one
from the fold. -/
theorem auxFoldrMaxSub (l : List Nat) :
    (l.map (fun x => x - 1)).foldr max 0 = l.foldr max 0 - 1 := by
  induction l with
  | nil => rfl
  | cons a t ih =>
    simp only [List.map_cons, List.foldr_cons, ih]
    exact Nat.sub_max_sub_right a (t.foldr max 0) 1

/-- Every member is bounded by the `max` fold. -/
theorem auxMemLeFoldrMax {l : List Nat} {x : Nat} (h : x ∈ l) : x ≤ l.foldr max 0 := by
  induction l with
  | nil => cases h
  | cons a t ih =>
    rcases List.mem_cons.mp h with rfl | hm
    · exact le_max_left _ _
    · exact le_trans (ih hm) (le_max_right _ _)

/-- The `max` fold of a list of zeroes is zero. -/
theorem auxFoldrMaxZero {l : List Nat} (h : ∀ x ∈ l, x = 0) : l.foldr max 0 = 0 := by
  induction l with
  | nil => rfl
  | cons a t ih =>
    simp only [List.foldr_cons, ih (fun x hx => h x (List.mem_cons_of_mem _ hx)),
      h a (List.mem_cons_self a t), Nat.max_self]

/-- Indexing the tail shifts the index by one. -/
theorem auxTailGet (V : Type) (c : List V) (i : Nat) : c.tail.get? i = c.get? (i + 1) := by
  cases c <;> simp

/-- `zip_longest` emits exactly as many rows as the longest column. -/
theorem zipLongestO_length {V : Type} (cols : List (List V)) :
    (zipLongestO cols).length = (cols.map List.length).foldr max 0 := by
  induction cols using zipLongestO.induct with
  | case1 cols h ih =>
    rw [zipLongestO, if_pos h]
    simp only [List.length_cons, ih, List.map_map]
    have heq : cols.map (List.length ∘ List.tail) = (cols.map List.length).map (fun x => x - 1) := by
      rw [List.map_map]
      exact List.map_congr_left (fun c _ => List.length_tail c)
    rw [heq, auxFoldrMaxSub]
    obtain ⟨c, hc, hne⟩ := List.any_eq_true.mp h
    have hpos : 0 < c.length := by
      cases c
      · simp at hne
      · simp
    have hle := auxMemLeFoldrMax (List.mem_map_of_mem List.length hc)
    omega
  | case2 cols h =>
    rw [zipLongestO, if_neg h]
    have hz : ∀ x ∈ cols.map List.length, x = 0 := by
      intro x hx
      obtain ⟨c, hc, rfl⟩ := List.mem_map.mp hx
      by_contra hne
      exact h (List.any_eq_true.mpr ⟨c, hc, by cases c <;> simp_all⟩)
    rw [auxFoldrMaxZero hz]
    rfl

/-- Row `i` of `zip_longest` is the list of `i`-th elements of the columns,
`none` standing for the padding value. -/
theorem zipLongestO_get {V : Type} (cols : List (List V)) :
    ∀ (i : Nat) (row : List (Option V)), (zipLongestO cols).get? i = some row →
      row = cols.map (fun c => c.get? i) := by
  induction cols using zipLongestO.induct with
  | case1 cols h ih =>
    intro i row hrow
    rw [zipLongestO, if_pos h] at hrow
    cases i with
    | zero =>
      simp only [List.get?_cons_zero, Option.some.injEq] at hrow
      subst hrow
      exact List.map_congr_left (fun c _ => by cases c <;> simp)
    | succ i =>
      simp only [List.get?_cons_succ] at hrow
      rw [ih i row hrow, List.map_map]
      exact List.map_congr_left (fun c _ => auxTailGet V c i)
  | case2 cols h =>
    intro i row hrow
    rw [zipLongestO, if_neg h] at hrow
    simp at hrow

/-- C7: `_pack_dict` emits one row per index of the longest column, and row
`i` binds exactly the child names whose column has an `i`-th element to that
element (a shorter column contributes no key to trailing rows). -/
theorem C7_pack_dict {K V : Type} (d : List (K × List V)) :
    (pack_dict d).length = (d.map (fun kv => kv.2.length)).foldr max 0 ∧
    ∀ (i : Nat) (row : List (K × V)), (pack_dict d).get? i = some row →
      ∀ (k : K) (v : V), ((k, v) ∈ row ↔ ∃ col, (k, col) ∈ d ∧ col.get? i = some v) := by
  constructor
  · rw [pack_dict, List.length_map, zipLongestO_length, List.map_map]
    rfl
  · intro i row hrow k v
    rw [pack_dict] at hrow
    rw [List.get?_map] at hrow
    rcases hopt : (zipLongestO (d.map Prod.snd)).get? i with _ | row0
    · rw [hopt] at hrow
      simp at hrow
    · rw [hopt] at hrow
      simp only [Option.map_some', Option.some.injEq] at hrow
      subst hrow
      rw [zipLongestO_get (d.map Prod.snd) i row0 hopt, List.map_map, List.zip_map',
        List.filterMap_map]
      simp only [List.mem_filterMap, Function.comp_apply, Option.map_eq_some']
      constructor
      · rintro ⟨⟨a, col⟩, hmem, b, hb, heq⟩
        cases heq
        exact ⟨col, hmem, hb⟩
      · rintro ⟨col, hmem, hb⟩
        exact ⟨(k, col), hmem, v, hb, rfl⟩

/-- Witness for C7: a two-column dict with columns of lengths 2 and 1 packs
into 2 rows, and its second row binds exactly the long column's key. -/
theorem C7_pack_dict_witness :
    (pack_dict [((0 : Nat), [(10 : Nat), 20]), (1, [30])]).length = 2 ∧
    (((0 : Nat), (20 : Nat)) ∈ [((0 : Nat), (20 : Nat))] ↔
      ∃ col, ((0 : Nat), col) ∈ [((0 : Nat), [(10 : Nat), 20]), (1, [30])] ∧
        col.get? 1 = some 20) := by
  have h := C7_pack_dict [((0 : Nat), [(10 : Nat), 20]), (1, [30])]
  refine ⟨h.1.trans (by decide), ?_⟩
  refine h.2 1 [((0 : Nat), (20 : Nat))] ?_ 0 20
  simp [pack_dict, zipLongestO]

/-- Destructuring a successful `Except` bind. -/
theorem bind_ok_iff {α β : Type} (x : Except Str α) (f : α → Except Str β) (b : β) :
    (x >>= f) = .ok b ↔ ∃ a, x = .ok a ∧ f a = .ok b := by
  cases x <;> simp [Bind.bind, Except.bind]

/-- Destructuring a successful `Except` map. -/
theorem map_ok_iff {α β : Type} (g : α → β) (x : Except Str α) (b : β) :
    x.map g = .ok b ↔ ∃ a, x = .ok a ∧ g a = b := by
  cases x <;> simp [Except.map]

/-- Shape of every collected descriptor: `parents` strictly extends the
ancestor chain at the recursion entry, the dotted name is the dot-join of
`parents`, the local name is the last entry of `parents`, and (for
well-formed inputs) every segment of `parents` is a well-formed name.  This
is the structural invariant of `_collect_fields`, proved by the functional
induction principle of the three mutually recursive branches. -/
theorem collect_shape (fields : List PFieldDecl) (docs : List (Str × Str))
    (parents : List Str) (parseDoc unpack : Bool) :
    ∀ fs, collectFieldList fields docs parents parseDoc unpack = .ok fs →
      ∀ f ∈ fs,
        ((∃ suffix, suffix ≠ [] ∧ f.parents = parents ++ suffix) ∧
          f.dotted_name = joinDots f.parents ∧
          f.parents.getLast? = some f.name) ∧
        (wfFields fields = true → (∀ s ∈ parents, wfName s = true) →
          ∀ s ∈ f.parents, wfName s = true) := by
  refine collectFieldList.induct
    (fun fields docs parents parseDoc unpack =>
      ∀ fs, collectFieldList fields docs parents parseDoc unpack = .ok fs →
        ∀ f ∈ fs,
          ((∃ suffix, suffix ≠ [] ∧ f.parents = parents ++ suffix) ∧
            f.dotted_name = joinDots f.parents ∧
            f.parents.getLast? = some f.name) ∧
          (wfFields fields = true → (∀ s ∈ parents, wfName s = true) →
            ∀ s ∈ f.parents, wfName s = true))
    (fun fann fi name parents documentation parseDoc unpack =>
      parents.getLast? = some name →
      ∀ fs, collectOneField fann fi name parents documentation parseDoc unpack = .ok fs →
        ∀ f ∈ fs,
          ((∃ suffix, f.parents = parents ++ suffix) ∧
            f.dotted_name = joinDots f.parents ∧
            f.parents ≠ [] ∧
            f.parents.getLast? = some f.name) ∧
          (wfType fann = true → (∀ s ∈ parents, wfName s = true) →
            ∀ s ∈ f.parents, wfName s = true))
    (fun args parents parseDoc unpack =>
      ∀ fs, collectUnionArgs args parents parseDoc unpack = .ok fs →
        ∀ f ∈ fs,
          ((∃ suffix, suffix ≠ [] ∧ f.parents = parents ++ suffix) ∧
            f.dotted_name = joinDots f.parents ∧
            f.parents.getLast? = some f.name) ∧
          (wfUnion args = true → (∀ s ∈ parents, wfName s = true) →
            ∀ s ∈ f.parents, wfName s = true))
    ?_ ?_ ?_ ?_ ?_ ?_ ?_ ?_ ?_ fields docs parents parseDoc unpack
  · -- collectFieldList, nil
    intro docs parents parseDoc unpack fs h
    simp only [collectFieldList, Except.ok.injEq] at h
    subst h
    intro f hf
    cases hf
  · -- collectFieldList, cons
    intro docs parents parseDoc unpack fname fann fdflt fmeta fdescr rest documentation ih2 ih1
    intro fs h
    simp only [collectFieldList] at h
    rw [bind_ok_iff] at h
    obtain ⟨head, hhead, h⟩ := h
    rw [bind_ok_iff] at h
    obtain ⟨tail, htail, h⟩ := h
    simp only [Except.ok.injEq] at h
    subst h
    intro f hf
    have hlast : (parents ++ [fname]).getLast? = some fname := by
      simp
    rcases List.mem_append.mp hf with hm | hm
    · obtain ⟨⟨⟨suffix, hsuf⟩, hdot, hln⟩, hwf⟩ := ih2 hlast head hhead f hm
      refine ⟨⟨⟨fname :: suffix, by simp, by rw [hsuf]; simp⟩, hdot, hln.2⟩, ?_⟩
      intro hwfF hwfP
      simp only [wfFields, Bool.and_eq_true] at hwfF
      refine hwf hwfF.1.1.2 ?_
      intro s hs
      rcases List.mem_append.mp hs with hs | hs
      · exact hwfP s hs
      · simp only [List.mem_singleton] at hs
        subst hs
        exact hwfF.1.1.1
    · obtain ⟨⟨⟨suffix, hne, hsuf⟩, hdot, hln⟩, hwf⟩ := ih1 tail htail f hm
      refine ⟨⟨⟨suffix, hne, hsuf⟩, hdot, hln⟩, ?_⟩
      intro hwfF hwfP
      simp only [wfFields, Bool.and_eq_true] at hwfF
      exact hwf hwfF.2 hwfP
  · -- collectOneField, model annotation
    intro fi name parents documentation parseDoc unpack docs fields ih1
    intro hlast fs h
    simp only [collectOneField] at h
    intro f hf
    obtain ⟨⟨⟨suffix, hne, hsuf⟩, hdot, hln⟩, hwf⟩ := ih1 fs h f hf
    refine ⟨⟨⟨suffix, hsuf⟩, hdot, by rw [hsuf]; simp [hne], hln⟩, ?_⟩
    intro hwfT hwfP
    refine hwf ?_ hwfP
    simpa [wfType] using hwfT
  · -- collectOneField, unpacked list of models, empty name
    intro fi parents documentation parseDoc docs fields
    intro hlast fs h
    simp [collectOneField] at h
  · -- collectOneField, unpacked list of models
    intro fi name parents documentation parseDoc docs fields hname ih1
    intro hlast fs h
    simp only [collectOneField, if_neg hname] at h
    rw [bind_ok_iff] at h
    obtain ⟨sub, hsub, h⟩ := h
    simp only [Except.ok.injEq] at h
    subst h
    intro f hf
    obtain ⟨g, hg, rfl⟩ := List.mem_map.mp hf
    obtain ⟨⟨⟨suffix, hne, hsuf⟩, hdot, hln⟩, hwf⟩ := ih1 sub hsub g hg
    refine ⟨⟨⟨suffix, hsuf⟩, hdot, by rw [hsuf]; simp [hne], hln⟩, ?_⟩
    intro hwfT hwfP
    refine hwf ?_ hwfP
    simpa [wfType] using hwfT
  · -- collectOneField, plain leaf, empty name
    intro fi parents documentation parseDoc unpack ann' hnm hnl
    intro hlast fs h
    exfalso
    rcases ann' with _ | _ | _ | _ | _ | cs | e | args | ⟨docs2, fields2⟩
    case tModel => exact hnm docs2 fields2 rfl
    case tList =>
      rcases unpack with _ | _
      case false => simp [collectOneField.eq_def] at h
      case true =>
        rcases e with _ | _ | _ | _ | _ | cs2 | e2 | args2 | ⟨docs2, fields2⟩
        case tModel => exact hnl docs2 fields2 rfl rfl
        all_goals simp [collectOneField.eq_def] at h
    all_goals simp [collectOneField.eq_def] at h
  · -- collectOneField, plain leaf (with union recursion)
    intro fi name parents documentation parseDoc unpack ann' hnm hname hnl hmatch
    intro hlast fs h
    have hpne : parents ≠ [] := by
      intro hp
      rw [hp] at hlast
      simp at hlast
    have hleaf : ∀ f : PydField, f = ⟨name, joinDots parents, fi, documentation, parents, none⟩ →
        ((∃ suffix, f.parents = parents ++ suffix) ∧
          f.dotted_name = joinDots f.parents ∧
          f.parents ≠ [] ∧
          f.parents.getLast? = some f.name) ∧
        (wfType ann' = true → (∀ s ∈ parents, wfName s = true) →
          ∀ s ∈ f.parents, wfName s = true) := by
      rintro f rfl
      exact ⟨⟨⟨[], by simp⟩, rfl, hpne, hlast⟩, fun _ hwfP => hwfP⟩
    rcases ann' with _ | _ | _ | _ | _ | cs | e | args | ⟨docs2, fields2⟩
    case tModel => exact absurd rfl (hnm docs2 fields2)
    case tUnion =>
      simp only [collectOneField.eq_def] at h
      rw [if_neg hname] at h
      rw [bind_ok_iff] at h
      obtain ⟨fromUnion, hfu, h⟩ := h
      simp only [Except.ok.injEq] at h
      subst h
      intro f hf
      rcases List.mem_append.mp hf with hm | hm
      · obtain ⟨⟨⟨suffix, hne, hsuf⟩, hdot, hln⟩, hwf⟩ := hmatch fromUnion hfu f hm
        refine ⟨⟨⟨suffix, hsuf⟩, hdot, by rw [hsuf]; simp [hne], hln⟩, ?_⟩
        intro hwfT hwfP
        refine hwf ?_ hwfP
        simpa [wfType] using hwfT
      · simp only [List.mem_singleton] at hm
        exact hleaf f hm
    case tList =>
      rcases unpack with _ | _
      case false =>
        simp only [collectOneField.eq_def] at h
        rw [if_neg hname] at h
        simp only [Bind.bind, Except.bind, List.nil_append, Except.ok.injEq] at h
        subst h
        intro f hf
        simp only [List.mem_singleton] at hf
        exact hleaf f hf
      case true =>
        rcases e with _ | _ | _ | _ | _ | cs2 | e2 | args2 | ⟨docs2, fields2⟩
        case tModel => exact (hnl docs2 fields2 rfl rfl).elim
        all_goals
          simp only [collectOneField.eq_def] at h
          rw [if_neg hname] at h
          simp only [Bind.bind, Except.bind, List.nil_append, Except.ok.injEq] at h
          subst h
          intro f hf
          simp only [List.mem_singleton] at hf
          exact hleaf f hf
    all_goals
      simp only [collectOneField.eq_def] at h
      rw [if_neg hname] at h
      simp only [Bind.bind, Except.bind, List.nil_append, Except.ok.injEq] at h
      subst h
      intro f hf
      simp only [List.mem_singleton] at hf
      exact hleaf f hf
  · -- collectUnionArgs, nil
    intro parents parseDoc unpack fs h
    simp only [collectUnionArgs, Except.ok.injEq] at h
    subst h
    intro f hf
    cases hf
  · -- collectUnionArgs, cons
    intro parents parseDoc unpack a rest hmatch ih3
    intro fs h
    have htailcase : ∀ tail, collectUnionArgs rest parents parseDoc unpack = .ok tail →
        ∀ f ∈ tail,
          ((∃ suffix, suffix ≠ [] ∧ f.parents = parents ++ suffix) ∧
            f.dotted_name = joinDots f.parents ∧ f.parents.getLast? = some f.name) ∧
          (wfUnion (a :: rest) = true → (∀ s ∈ parents, wfName s = true) →
            ∀ s ∈ f.parents, wfName s = true) := by
      intro tail htail f hm
      obtain ⟨hshape, hwf⟩ := ih3 tail htail f hm
      refine ⟨hshape, ?_⟩
      intro hwfU hwfP
      simp only [wfUnion, Bool.and_eq_true] at hwfU
      exact hwf hwfU.2 hwfP
    rcases a with _ | _ | _ | _ | _ | cs | e | args | ⟨docsA, fieldsA⟩
    case tModel =>
      simp only [collectUnionArgs] at h
      rw [bind_ok_iff] at h
      obtain ⟨head, hhead, h⟩ := h
      rw [bind_ok_iff] at h
      obtain ⟨tail, htail, h⟩ := h
      simp only [Except.ok.injEq] at h
      subst h
      intro f hf
      rcases List.mem_append.mp hf with hm | hm
      · obtain ⟨hshape, hwf⟩ := hmatch head hhead f hm
        refine ⟨hshape, ?_⟩
        intro hwfU hwfP
        simp only [wfUnion, Bool.and_eq_true] at hwfU
        refine hwf ?_ hwfP
        simpa [wfType] using hwfU.1
      · exact htailcase tail htail f hm
    all_goals
      simp only [collectUnionArgs] at h
      rw [bind_ok_iff] at h
      obtain ⟨head, hhead, h⟩ := h
      rw [bind_ok_iff] at h
      obtain ⟨tail, htail, h⟩ := h
      simp only [Except.ok.injEq] at h
      subst h
      simp only [Except.ok.injEq] at hhead
      subst hhead
      intro f hf
      rw [List.nil_append] at hf
      exact htailcase tail htail f hf

/-- A join starting with a nonempty chunk is nonempty. -/
theorem joinSep_cons_ne_nil (sep : Char) (x : Str) (rest : List Str) (hx : x ≠ []) :
    joinSep sep (x :: rest) ≠ [] := by
  cases rest <;> simp [joinSep, hx]

/-- Kebab-casing preserves (non)emptiness. -/
theorem snake_case_to_kebab_case_eq_nil_iff (s : Str) :
    snake_case_to_kebab_case s = [] ↔ s = [] := by
  simp [snake_case_to_kebab_case]

/-- Iterations of the `_get_base_option_name` loop that only meet missing or
falsy aliases can be skipped down to iteration `i`. -/
theorem baseGo_skip (ss : List Str) (aliases : List (Str × Str)) (pfx dotted : Str)
    (i : Nat) (hlt : i < ss.length)
    (hskip : ∀ k, i < k → k ≤ ss.length →
      ∀ b, alookup aliases (joinDots (ss.take k)) = some b → b = []) :
    ∀ j, i ≤ j → j ≤ ss.length + 1 →
      baseOptionNameGo ss aliases pfx dotted j = baseOptionNameGo ss aliases pfx dotted i := by
  intro j
  induction j with
  | zero =>
    intro h1 _
    have hi0 : i = 0 := by omega
    rw [hi0]
  | succ j ih =>
    intro hij hj1
    rcases eq_or_lt_of_le hij with h | hlt2
    · rw [h]
    · have hij' : i ≤ j := by omega
      have hprefix : ∀ b, alookup aliases (joinDots (ss.take (j + 1))) = some b → b = [] := by
        by_cases hcase : j + 1 ≤ ss.length
        · exact hskip (j + 1) (by omega) hcase
        · have hfull : ss.take (j + 1) = ss := List.take_of_length_le (by omega)
          intro b hb
          refine hskip ss.length (by omega) (le_refl _) b ?_
          rw [List.take_length]
          rw [hfull] at hb
          exact hb
      rw [baseOptionNameGo]
      rcases hal : alookup aliases (joinDots (ss.take (j + 1))) with _ | b
      · exact ih hij' (by omega)
      · have hb := hprefix b hal
        rw [hb]
        simp only [if_pos rfl]
        exact ih hij' (by omega)

/-- C4: the base option name is resolved by walking the dotted path's
prefixes from longest to shortest (the full path included) and taking the
first prefix with a usable alias, appending the kebab-cased remaining
segments when the winning prefix is a strict ancestor; and the two
spec examples: with aliases `foo` to `--oof` and `foo.bar` to `--baz`, the
option name for `foo.baz` is `--oof-baz` and for `foo.bar` is `--baz`. -/
theorem C4_option_naming :
    (∀ (dotted : Str) (aliases : List (Str × Str)) (pfx : Str) (i : Nat) (a : Str),
      1 ≤ i → i ≤ (splitOnChar '.' dotted).length →
      (∀ s ∈ splitOnChar '.' dotted, s ≠ []) →
      alookup aliases (joinDots ((splitOnChar '.' dotted).take i)) = some a → a ≠ [] →
      (∀ j, i < j → j ≤ (splitOnChar '.' dotted).length →
        ∀ b, alookup aliases (joinDots ((splitOnChar '.' dotted).take j)) = some b → b = []) →
      (i < (splitOnChar '.' dotted).length → a.contains '/' = false) →
      get_base_option_name dotted aliases pfx =
        (if i = (splitOnChar '.' dotted).length then .ok a
         else .ok (a ++ '-' :: snake_case_to_kebab_case
           (joinSep '-' ((splitOnChar '.' dotted).drop i))))) ∧
    get_option_name "foo.baz".toList
      [("foo".toList, "--oof".toList), ("foo.bar".toList, "--baz".toList)] false [] =
      .ok "--oof-baz".toList ∧
    get_option_name "foo.bar".toList
      [("foo".toList, "--oof".toList), ("foo.bar".toList, "--baz".toList)] false [] =
      .ok "--baz".toList := by
  refine ⟨?_, by rfl, by rfl⟩
  intro dotted aliases pfx i a h1 hle hss hfind hane hskip hsl
  rw [get_base_option_name]
  by_cases hi : i = (splitOnChar '.' dotted).length
  · rw [if_pos hi]
    rw [baseOptionNameGo]
    rw [List.take_of_length_le (by omega)]
    rw [← List.take_length (splitOnChar '.' dotted), ← hi, hfind]
    simp only [if_neg hane]
    rw [List.drop_eq_nil_of_le (by omega)]
    simp [joinSep, snake_case_to_kebab_case]
  · rw [if_neg hi]
    have hlt : i < (splitOnChar '.' dotted).length := lt_of_le_of_ne hle hi
    rw [baseGo_skip (splitOnChar '.' dotted) aliases pfx dotted i hlt hskip
      ((splitOnChar '.' dotted).length + 1) (by omega) (by omega)]
    obtain ⟨i', rfl⟩ : ∃ i', i = i' + 1 := ⟨i - 1, by omega⟩
    rw [baseOptionNameGo, hfind]
    simp only [if_neg hane]
    have hdrop : (splitOnChar '.' dotted).drop (i' + 1) ≠ [] := by
      rw [ne_eq, List.drop_eq_nil_iff]
      omega
    have hsuffix : snake_case_to_kebab_case
        (joinSep '-' ((splitOnChar '.' dotted).drop (i' + 1))) ≠ [] := by
      rcases hd : (splitOnChar '.' dotted).drop (i' + 1) with _ | ⟨x, rest⟩
      · exact absurd hd hdrop
      · rw [ne_eq, snake_case_to_kebab_case_eq_nil_iff]
        refine joinSep_cons_ne_nil '-' x rest ?_
        refine hss x ?_
        exact List.mem_of_mem_drop (hd ▸ List.mem_cons_self x rest)
    rw [if_pos hsuffix, hsl hlt]
    simp

/-- Witness for C4: the general longest-prefix rule applied at the spec
example (`foo.baz` with a usable alias on the strict ancestor `foo`). -/
theorem C4_option_naming_witness :
    get_base_option_name "foo.baz".toList
      [("foo".toList, "--oof".toList), ("foo.bar".toList, "--baz".toList)] [] =
      .ok "--oof-baz".toList := by
  have h := C4_option_naming.1 "foo.baz".toList
    [("foo".toList, "--oof".toList), ("foo.bar".toList, "--baz".toList)] [] 1 "--oof".toList
    (by decide) (by decide) (by decide) (by rfl) (by decide)
    (by
      intro j hj1 hj2 b hb
      have h2 : (splitOnChar '.' "foo.baz".toList).length = 2 := rfl
      rw [h2] at hj2
      interval_cases j
      exact Option.noConfusion (show (none : Option Str) = some b from hb))
    (by intro _; decide)
  exact h.trans (by rfl)

/-- A well-formed name is nonempty. -/
theorem wfName_ne_nil {s : Str} (h : wfName s = true) : s ≠ [] := by
  simp only [wfName, Bool.and_eq_true, Bool.not_eq_true'] at h
  intro hc
  rw [hc] at h
  simp at h

/-- Every character of a well-formed name is a word character. -/
theorem wfName_chars {s : Str} (h : wfName s = true) : ∀ ch ∈ s, wordCharB ch = true := by
  simp only [wfName, Bool.and_eq_true, List.all_eq_true] at h
  exact h.2

/-- The dot-join of nonempty segments is nonempty. -/
theorem joinDots_ne_nil (segs : List Str) (h0 : segs ≠ []) (h1 : ∀ s ∈ segs, s ≠ []) :
    joinDots segs ≠ [] := by
  match segs with
  | [] => exact absurd rfl h0
  | [s] => exact h1 s (by simp)
  | s :: r :: rest =>
    simp only [joinDots, ne_eq, List.append_eq_nil]
    simp

/-- Every character of the dot-join of well-formed segments is a word
character or a dot. -/
theorem joinDots_chars (segs : List Str) (h : ∀ s ∈ segs, wfName s = true) :
    ∀ ch ∈ joinDots segs, wordCharB ch = true ∨ ch = '.' := by
  match segs with
  | [] => simp [joinDots]
  | [s] =>
    intro ch hch
    exact Or.inl (wfName_chars (h s (by simp)) ch hch)
  | s :: r :: rest =>
    intro ch hch
    simp only [joinDots] at hch
    rcases List.mem_append.mp hch with hm | hm
    · exact Or.inl (wfName_chars (h s (by simp)) ch hm)
    · rcases List.mem_cons.mp hm with rfl | hm
      · exact Or.inr rfl
      · exact joinDots_chars (r :: rest) (fun t ht => h t (List.mem_cons_of_mem _ ht)) ch hm

/-- The dot-join of well-formed segments ends in a word character. -/
theorem joinDots_getLast_word (segs : List Str) (h0 : segs ≠ [])
    (h : ∀ s ∈ segs, wfName s = true) :
    ∃ c, (joinDots segs).getLast? = some c ∧ wordCharB c = true := by
  match segs with
  | [] => exact absurd rfl h0
  | [s] =>
    have hs := h s (by simp)
    rcases hlast : s.getLast? with _ | c
    · exact absurd (List.getLast?_eq_none_iff.mp hlast) (wfName_ne_nil hs)
    · exact ⟨c, hlast, wfName_chars hs c (List.mem_of_mem_getLast? hlast)⟩
  | s :: r :: rest =>
    obtain ⟨c, hc, hw⟩ := joinDots_getLast_word (r :: rest) (by simp)
      (fun t ht => h t (List.mem_cons_of_mem _ ht))
    refine ⟨c, ?_, hw⟩
    show (s ++ '.' :: joinDots (r :: rest)).getLast? = some c
    rw [List.getLast?_append]
    rw [show ('.' :: joinDots (r :: rest)) = ['.'] ++ joinDots (r :: rest) from rfl]
    rw [List.getLast?_append, hc]
    rfl

/-- The excluded-field pattern of `collect_fields` matches a dotted name
exactly when the name equals the excluded path or extends it by a dot: the
regex is `^(p)\b`, the character after the prefix (if any) is a word
character or a dot, and `\b` holds exactly when it is absent or a dot. -/
theorem matchesExcludedOne_iff (p s : Str) (hpne : p ≠ [])
    (hplast : ∃ c, p.getLast? = some c ∧ wordCharB c = true)
    (hs : ∀ ch ∈ s, wordCharB ch = true ∨ ch = '.') :
    (matchesExcludedOne p s = true) ↔ (s = p ∨ (p ++ ['.']) <+: s) := by
  obtain ⟨c, hclast, hcw⟩ := hplast
  simp only [matchesExcludedOne, Bool.and_eq_true, List.isPrefixOf_iff_prefix]
  have hplen : 0 < p.length := List.length_pos.mpr hpne
  constructor
  · rintro ⟨⟨r, rfl⟩, hbnd⟩
    have hprev : wordAt (p ++ r) (p.length - 1) = true := by
      rw [wordAt, List.get?_append (by omega), ← List.getLast?_eq_get?, hclast]
      exact hcw
    rw [boundaryAt, if_neg (by omega), hprev] at hbnd
    rcases hr : r with _ | ⟨c', r'⟩
    · left
      simp
    · subst hr
      have hnext : wordAt (p ++ c' :: r') p.length =  wordCharB c' := by
        rw [wordAt, List.get?_append_right (le_refl _)]
        simp
      rw [hnext] at hbnd
      have hc' : wordCharB c' = false := by
        cases hcc : wordCharB c'
        · rfl
        · rw [hcc] at hbnd
          simp at hbnd
      have hmem : c' ∈ p ++ c' :: r' := by simp
      rcases hs c' hmem with hw | hdot
      · rw [hw] at hc'
        cases hc'
      · subst hdot
        right
        rw [show (p ++ '.' :: r') = (p ++ ['.']) ++ r' by simp]
        exact List.prefix_append _ _
  · rintro (rfl | ⟨r', rfl⟩)
    · refine ⟨List.prefix_rfl, ?_⟩
      rw [boundaryAt, if_neg (by omega)]
      have hprev : wordAt s (s.length - 1) = true := by
        rw [wordAt, ← List.getLast?_eq_get?, hclast]
        exact hcw
      have hnext : wordAt s s.length = false := by
        rw [wordAt, List.get?_eq_none.mpr (le_refl _)]
      rw [hprev, hnext]
      rfl
    · have hshape : p ++ ['.'] ++ r' = p ++ '.' :: r' := by simp
      rw [hshape]
      refine ⟨⟨'.' :: r', rfl⟩, ?_⟩
      rw [boundaryAt, if_neg (by omega)]
      have hprev : wordAt (p ++ '.' :: r') (p.length - 1) = true := by
        rw [wordAt, List.get?_append (by omega), ← List.getLast?_eq_get?, hclast]
        exact hcw
      have hnext : wordAt (p ++ '.' :: r') p.length = false := by
        rw [wordAt, List.get?_append_right (le_refl _)]
        simp [wordCharB]
      rw [hprev, hnext]
      rfl

/-- C3: excluding a dotted path `p` drops exactly the descriptors whose
dotted name is `p` or extends `p` by a dot-delimited segment, and no others:
the filtered collection equals the unfiltered collection restricted by that
predicate (for any well-formed model and well-formed dotted path). -/
theorem C3_exclusion (m : PType) (p : Str) (parseDoc unpack : Bool)
    (hm : wfType m = true)
    (hp : ∃ segs, segs ≠ [] ∧ (∀ s ∈ segs, wfName s = true) ∧ p = joinDots segs) :
    collect_fields m [p] parseDoc unpack =
      (collect_fields m [] parseDoc unpack).map
        (fun fs => fs.filter
          (fun f => !(decide (f.dotted_name = p) ||
            (p ++ ['.']).isPrefixOf f.dotted_name))) := by
  obtain ⟨segs, hsegs0, hsegswf, rfl⟩ := hp
  have hpne : joinDots segs ≠ [] :=
    joinDots_ne_nil segs hsegs0 (fun s hsm => wfName_ne_nil (hsegswf s hsm))
  have hplast := joinDots_getLast_word segs hsegs0 hsegswf
  rcases m with _ | _ | _ | _ | _ | cs | e | args | ⟨docs, fields⟩
  case tModel =>
    simp only [collect_fields, collectFieldsRaw]
    rcases hc : collectFieldList fields docs [] parseDoc unpack with e | fs
    · rfl
    · simp only [Except.map]
      congr 1
      have hfilter0 : fs.filter (fun f => !(matchesExcluded [] f.dotted_name)) = fs := by
        simp [matchesExcluded]
      rw [hfilter0]
      refine List.filter_congr ?_
      intro f hf
      obtain ⟨⟨⟨suffix, hsufne, hsuf⟩, hdot, _⟩, hwf⟩ :=
        collect_shape fields docs [] parseDoc unpack fs hc f hf
      have hfwf : ∀ s ∈ f.parents, wfName s = true := by
        refine hwf ?_ (by simp)
        simpa [wfType] using hm
      have hschars : ∀ ch ∈ f.dotted_name, wordCharB ch = true ∨ ch = '.' := by
        rw [hdot]
        exact joinDots_chars f.parents hfwf
      have hone : (matchesExcludedOne (joinDots segs) f.dotted_name = true) ↔
          (f.dotted_name = joinDots segs ∨ (joinDots segs ++ ['.']) <+: f.dotted_name) :=
        matchesExcludedOne_iff (joinDots segs) f.dotted_name hpne hplast hschars
      have hmatch1 : matchesExcluded [joinDots segs] f.dotted_name =
          matchesExcludedOne (joinDots segs) f.dotted_name := by
        simp [matchesExcluded]
      rw [hmatch1]
      congr 1
      rw [Bool.eq_iff_iff, hone]
      simp [List.isPrefixOf_iff_prefix]
  all_goals rfl

/-- Witness for C3: excluding `foo` from the nested example model keeps
exactly the field `c`. -/
theorem C3_exclusion_witness :
    collect_fields mNest ["foo".toList] true false =
      (collect_fields mNest [] true false).map
        (fun fs => fs.filter
          (fun f => !(decide (f.dotted_name = "foo".toList) ||
            ("foo".toList ++ ['.']).isPrefixOf f.dotted_name))) := by
  refine C3_exclusion mNest "foo".toList true false ?_ ⟨["foo".toList], by simp, ?_, rfl⟩
  · simp [mNest, mFoo, wfType, wfFields, wfUnion, wfName, wordCharB]
  · intro s hs
    simp only [List.mem_singleton] at hs
    subst hs
    decide

/-- Components of a model-union-free union member list. -/
theorem noModelUnionArgs_cons {a : PType} {rest : List PType}
    (h : noModelUnionArgs (a :: rest) = true) :
    (∀ docs fields, a ≠ PType.tModel docs fields) ∧ noModelUnionT a = true ∧
      noModelUnionArgs rest = true := by
  rcases a with _ | _ | _ | _ | _ | cs | e | args | ⟨docsA, fieldsA⟩ <;>
    simp only [noModelUnionArgs, Bool.true_and, Bool.false_and, Bool.and_eq_true] at h
  case tModel => simp at h
  all_goals exact ⟨by simp, h.1, h.2⟩

/-- On models without model-valued union members and with unpacking off, the
collector's ancestor chains are exactly the spec's depth-first declared leaf
chains, extended with the ambient ancestor chain. -/
theorem collect_chains (fields : List PFieldDecl) (docs : List (Str × Str))
    (parents : List Str) (parseDoc unpack : Bool) :
    unpack = false → noModelUnionFields fields = true →
    ∀ fs, collectFieldList fields docs parents parseDoc unpack = .ok fs →
      fs.map (fun f => f.parents) = (specLeafChains fields).map (fun c => parents ++ c) := by
  refine collectFieldList.induct
    (fun fields docs parents parseDoc unpack =>
      unpack = false → noModelUnionFields fields = true →
      ∀ fs, collectFieldList fields docs parents parseDoc unpack = .ok fs →
        fs.map (fun f => f.parents) = (specLeafChains fields).map (fun c => parents ++ c))
    (fun fann fi name parents documentation parseDoc unpack =>
      unpack = false → noModelUnionT fann = true →
      ∀ fs, collectOneField fann fi name parents documentation parseDoc unpack = .ok fs →
        fs.map (fun f => f.parents) = specChainsT fann parents)
    (fun args parents parseDoc unpack =>
      unpack = false → noModelUnionArgs args = true →
      ∀ fs, collectUnionArgs args parents parseDoc unpack = .ok fs → fs = [])
    ?_ ?_ ?_ ?_ ?_ ?_ ?_ ?_ ?_ fields docs parents parseDoc unpack
  · -- nil
    intro docs parents parseDoc unpack _ _ fs h
    simp only [collectFieldList, Except.ok.injEq] at h
    subst h
    simp [specLeafChains]
  · -- cons
    intro docs parents parseDoc unpack fname fann fdflt fmeta fdescr rest documentation ih2 ih1
    intro hu hnmu fs h
    simp only [collectFieldList] at h
    rw [bind_ok_iff] at h
    obtain ⟨head, hhead, h⟩ := h
    rw [bind_ok_iff] at h
    obtain ⟨tail, htail, h⟩ := h
    simp only [Except.ok.injEq] at h
    subst h
    simp only [noModelUnionFields, Bool.and_eq_true] at hnmu
    have hh := ih2 hu hnmu.1 head hhead
    have ht := ih1 hu hnmu.2 tail htail
    rcases fann with _ | _ | _ | _ | _ | cs | e | args | ⟨docsA, fieldsA⟩ <;>
      rw [List.map_append, hh, ht] <;>
      simp [specChainsT, specLeafChains, List.map_map, List.append_assoc]
  · -- model annotation
    intro fi name parents documentation parseDoc unpack docs fields ih1
    intro hu hnmu fs h
    simp only [collectOneField] at h
    rw [specChainsT]
    exact ih1 hu (by simpa [noModelUnionT] using hnmu) fs h
  · -- unpacked list, empty name: unpack = true contradicts the premise
    intro fi parents documentation parseDoc docs fields
    intro hu
    cases hu
  · -- unpacked list
    intro fi name parents documentation parseDoc docs fields hname ih1
    intro hu
    cases hu
  · -- plain leaf, empty name: the collector errors
    intro fi parents documentation parseDoc unpack ann' hnm hnl
    intro hu hnmu fs h
    exfalso
    subst hu
    rcases ann' with _ | _ | _ | _ | _ | cs | e | args | ⟨docs2, fields2⟩
    case tModel => exact hnm docs2 fields2 rfl
    all_goals simp [collectOneField.eq_def] at h
  · -- plain leaf
    intro fi name parents documentation parseDoc unpack ann' hnm hname hnl hmatch
    intro hu hnmu fs h
    subst hu
    rcases ann' with _ | _ | _ | _ | _ | cs | e | args | ⟨docs2, fields2⟩
    case tModel => exact absurd rfl (hnm docs2 fields2)
    case tUnion =>
      simp only [collectOneField.eq_def] at h
      rw [if_neg hname] at h
      rw [bind_ok_iff] at h
      obtain ⟨fromUnion, hfu, h⟩ := h
      simp only [Except.ok.injEq] at h
      subst h
      have hfu0 : fromUnion = [] :=
        hmatch rfl (by simpa [noModelUnionT] using hnmu) fromUnion hfu
      subst hfu0
      simp [specChainsT]
    all_goals
      simp only [collectOneField.eq_def] at h
      rw [if_neg hname] at h
      simp only [Bind.bind, Except.bind, List.nil_append, Except.ok.injEq] at h
      subst h
      simp [specChainsT]
  · -- union nil
    intro parents parseDoc unpack _ _ fs h
    simp only [collectUnionArgs, Except.ok.injEq] at h
    exact h.symm
  · -- union cons: the member is never a model
    intro parents parseDoc unpack a rest hmatch ih3
    intro hu hnmu fs h
    obtain ⟨hnm2, hna, hnr⟩ := noModelUnionArgs_cons hnmu
    rcases a with _ | _ | _ | _ | _ | cs | e | args | ⟨docsA, fieldsA⟩
    case tModel => exact absurd rfl (hnm2 docsA fieldsA)
    all_goals
      simp only [collectUnionArgs] at h
      rw [bind_ok_iff] at h
      obtain ⟨head, hhead, h⟩ := h
      rw [bind_ok_iff] at h
      obtain ⟨tail, htail, h⟩ := h
      simp only [Except.ok.injEq] at h
      subst h
      simp only [Except.ok.injEq] at hhead
      subst hhead
      rw [ih3 hu hnr tail htail]
      rfl

/-- Unconditional unfolding of specLeafChains on a cons cell. -/
theorem specLeafChains_cons (n : Str) (ann : PType) (d : PDefault)
    (mta : List NumConstraint) (descr : Option Str) (rest : List PFieldDecl) :
    specLeafChains ((n, ann, d, mta, descr) :: rest) =
      (match ann with
        | PType.tModel _ subfields => (specLeafChains subfields).map (fun c => n :: c)
        | _ => [[n]]) ++ specLeafChains rest := by
  rcases ann with _ | _ | _ | _ | _ | cs | e | args | ⟨docsA, subfields⟩ <;>
    simp [specLeafChains]

/-- Every spec leaf chain starts with the name of one of the declared
fields. -/
theorem specLeafChains_head (fields : List PFieldDecl) :
    ∀ c ∈ specLeafChains fields, ∃ fd ∈ fields, c.head? = some fd.1 := by
  induction fields using specLeafChains.induct with
  | case1 =>
    intro c hc
    rw [specLeafChains] at hc
    exact absurd hc (List.not_mem_nil c)
  | case2 n ann d mta descr rest hmatch ihrest =>
    intro c hc
    rw [specLeafChains_cons] at hc
    rcases List.mem_append.mp hc with hm | hm
    · refine ⟨(n, ann, d, mta, descr), List.mem_cons_self _ _, ?_⟩
      rcases ann with _ | _ | _ | _ | _ | cs | e | args | ⟨docsA, subfields⟩
      case tModel =>
        simp only at hm
        obtain ⟨c', _, rfl⟩ := List.mem_map.mp hm
        simp
      all_goals
        have hc1 : c = [n] := by simpa using hm
        simp [hc1]
    · obtain ⟨fd, hfd, hh⟩ := ihrest c hm
      exact ⟨fd, List.mem_cons_of_mem _ hfd, hh⟩

/-- Spec leaf chains of a well-formed model are nonempty and made of
well-formed names. -/
theorem specLeafChains_wf (fields : List PFieldDecl) (hwf : wfFields fields = true) :
    ∀ c ∈ specLeafChains fields, c ≠ [] ∧ ∀ s ∈ c, wfName s = true := by
  induction fields using specLeafChains.induct with
  | case1 =>
    intro c hc
    rw [specLeafChains] at hc
    exact absurd hc (List.not_mem_nil c)
  | case2 n ann d mta descr rest hmatch ihrest =>
    intro c hc
    simp only [wfFields, Bool.and_eq_true] at hwf
    rw [specLeafChains_cons] at hc
    rcases List.mem_append.mp hc with hm | hm
    · rcases ann with _ | _ | _ | _ | _ | cs | e | args | ⟨docsA, subfields⟩
      case tModel =>
        simp only at hm
        obtain ⟨c', hc', rfl⟩ := List.mem_map.mp hm
        have hsub := hmatch (by simpa [wfType] using hwf.1.1.2) c' hc'
        refine ⟨by simp, ?_⟩
        intro s hs
        rcases List.mem_cons.mp hs with rfl | hs
        · exact hwf.1.1.1
        · exact hsub.2 s hs
      all_goals
        have hc1 : c = [n] := by simpa using hm
        subst hc1
        refine ⟨by simp, ?_⟩
        intro s hs
        simp only [List.mem_singleton] at hs
        subst hs
        exact hwf.1.1.1
    · exact ihrest hwf.2 c hm

/-- Spec leaf chains of a well-formed model are pairwise distinct. -/
theorem specLeafChains_nodup (fields : List PFieldDecl) (hwf : wfFields fields = true) :
    (specLeafChains fields).Nodup := by
  induction fields using specLeafChains.induct with
  | case1 =>
    rw [specLeafChains]
    exact List.nodup_nil
  | case2 n ann d mta descr rest hmatch ihrest =>
    simp only [wfFields, Bool.and_eq_true] at hwf
    rw [specLeafChains_cons]
    have hdisj : ∀ c, c ∈ specLeafChains rest → c.head? ≠ some n := by
      intro c hcr hh
      obtain ⟨fd, hfd, hh2⟩ := specLeafChains_head rest c hcr
      rw [hh] at hh2
      have hnotin := hwf.1.2
      simp only [Bool.not_eq_true', List.any_eq_false] at hnotin
      have := hnotin fd hfd
      simp only [decide_eq_true_eq] at this
      simp only [Option.some.injEq] at hh2
      exact this hh2.symm
    rcases ann with _ | _ | _ | _ | _ | cs | e | args | ⟨docsA, subfields⟩
    case tModel =>
      refine List.Nodup.append ?_ (ihrest hwf.2) ?_
      · simp only
        refine List.Nodup.map ?_ (hmatch (by simpa [wfType] using hwf.1.1.2))
        intro c1 c2 hc
        exact List.tail_eq_of_cons_eq hc
      · intro c hcg hcr
        simp only at hcg
        obtain ⟨c', _, rfl⟩ := List.mem_map.mp hcg
        exact hdisj _ hcr (by simp)
    all_goals
      refine List.Nodup.append (by simp) (ihrest hwf.2) ?_
      intro c hcg hcr
      simp only [List.mem_singleton] at hcg
      subst hcg
      exact hdisj _ hcr (by simp)

/-- Two dot-free strings followed by a dot separator determine each other. -/
theorem dotfree_append_inj (a : Str) :
    ∀ (b x y : Str), (∀ ch ∈ a, ch ≠ '.') → (∀ ch ∈ b, ch ≠ '.') →
      a ++ '.' :: x = b ++ '.' :: y → a = b ∧ x = y := by
  induction a with
  | nil =>
    intro b x y _ hb h
    rcases b with _ | ⟨c, b'⟩
    · simp only [List.nil_append, List.cons.injEq] at h
      exact ⟨rfl, h.2⟩
    · simp only [List.nil_append, List.cons_append, List.cons.injEq] at h
      exact absurd h.1.symm (hb c (by simp))
  | cons c a' ih =>
    intro b x y ha hb h
    rcases b with _ | ⟨c', b'⟩
    · simp only [List.cons_append, List.nil_append, List.cons.injEq] at h
      exact absurd h.1 (ha c (by simp))
    · simp only [List.cons_append, List.cons.injEq] at h
      obtain ⟨rfl, h2⟩ := h
      obtain ⟨hab, hxy⟩ := ih b' x y (fun ch hch => ha ch (List.mem_cons_of_mem _ hch))
        (fun ch hch => hb ch (List.mem_cons_of_mem _ hch)) h2
      exact ⟨by rw [hab], hxy⟩

/-- The dot-join is injective on nonempty chains of well-formed names. -/
theorem joinDots_inj (c1 : List Str) :
    ∀ (c2 : List Str), (∀ s ∈ c1, wfName s = true) → (∀ s ∈ c2, wfName s = true) →
      c1 ≠ [] → c2 ≠ [] → joinDots c1 = joinDots c2 → c1 = c2 := by
  have hdotfree : ∀ (s : Str), wfName s = true → ∀ ch ∈ s, ch ≠ '.' := by
    intro s hs ch hch
    have := wfName_chars hs ch hch
    intro hc
    rw [hc] at this
    simp [wordCharB] at this
  have hnodot : ∀ (c : List Str), (∀ s ∈ c, wfName s = true) → c ≠ [] →
      ('.' ∈ joinDots c ↔ c.length ≥ 2) := by
    intro c
    match c with
    | [] => intro _ h; exact absurd rfl h
    | [s] =>
      intro hwf _
      simp only [joinDots, List.length_singleton]
      constructor
      · intro hm
        exact absurd rfl (hdotfree s (hwf s (by simp)) '.' hm)
      · omega
    | s :: r :: rest =>
      intro hwf _
      simp only [joinDots, List.length_cons]
      constructor
      · intro _
        omega
      · intro _
        simp
  intro c2 hwf1 hwf2 hne1 hne2 heq
  match c1, c2, hne1, hne2 with
  | [s], [t], _, _ => rw [show joinDots [s] = s from rfl, show joinDots [t] = t from rfl] at heq; rw [heq]
  | [s], t :: t2 :: r2, _, _ =>
    exfalso
    have h2 : '.' ∈ joinDots (t :: t2 :: r2) := (hnodot _ hwf2 (by simp)).mpr (by simp)
    rw [← heq] at h2
    exact absurd rfl (hdotfree s (hwf1 s (by simp)) '.' h2)
  | s :: s2 :: r1, [t], _, _ =>
    exfalso
    have h1 : '.' ∈ joinDots (s :: s2 :: r1) := (hnodot _ hwf1 (by simp)).mpr (by simp)
    rw [heq] at h1
    exact absurd rfl (hdotfree t (hwf2 t (by simp)) '.' h1)
  | s :: s2 :: r1, t :: t2 :: r2, _, _ =>
    rw [show joinDots (s :: s2 :: r1) = s ++ '.' :: joinDots (s2 :: r1) from rfl,
      show joinDots (t :: t2 :: r2) = t ++ '.' :: joinDots (t2 :: r2) from rfl] at heq
    obtain ⟨hst, hrest⟩ := dotfree_append_inj s t _ _
      (hdotfree s (hwf1 s (by simp))) (hdotfree t (hwf2 t (by simp))) heq
    have := joinDots_inj (s2 :: r1) (t2 :: r2)
      (fun u hu => hwf1 u (List.mem_cons_of_mem _ hu))
      (fun u hu => hwf2 u (List.mem_cons_of_mem _ hu))
      (by simp) (by simp) hrest
    rw [hst, this]

/-- C2 (amended): with no exclusions and default (non-unpacking) settings,
on a well-formed model with no model-valued union members, every collected
descriptor satisfies: its `parents` chain is nonempty, already ends with the
local name, and its dotted name is the dot-join of `parents` (so the dotted
path is recovered from the strict ancestors plus the local name, not from
`parents + name`); the chains are exactly the declared depth-first leaf
chains in declaration order; and the dotted names are pairwise distinct. -/
theorem C2_collection_invariants (m : PType) (parseDoc : Bool) (fs : List PydField)
    (hwf : wfType m = true) (hnmu : noModelUnionT m = true)
    (hc : collect_fields m [] parseDoc false = .ok fs) :
    (∀ f ∈ fs, f.parents ≠ [] ∧ f.parents.getLast? = some f.name ∧
      f.dotted_name = joinDots f.parents) ∧
    fs.map (fun f => f.parents) = specLeafChains (fieldsOf m) ∧
    (fs.map (fun f => f.dotted_name)).Nodup := by
  rw [collect_fields, map_ok_iff] at hc
  obtain ⟨fs0, hraw, hfilter⟩ := hc
  have hfs : fs0 = fs := by
    rw [← hfilter]
    simp [matchesExcluded]
  subst hfs
  rcases m with _ | _ | _ | _ | _ | cs | e | args | ⟨docs, fields⟩
  case tModel =>
    simp only [collectFieldsRaw] at hraw
    have hshape := collect_shape fields docs [] parseDoc false fs0 hraw
    have hchains := collect_chains fields docs [] parseDoc false rfl
      (by simpa [noModelUnionT] using hnmu) fs0 hraw
    have hwff : wfFields fields = true := by simpa [wfType] using hwf
    have hchains' : fs0.map (fun f => f.parents) = specLeafChains fields := by
      rw [hchains]
      simp
    refine ⟨?_, ?_, ?_⟩
    · intro f hf
      obtain ⟨⟨⟨suffix, hne, hsuf⟩, hdot, hlast⟩, _⟩ := hshape f hf
      exact ⟨by rw [hsuf]; simpa using hne, hlast, hdot⟩
    · exact hchains'
    · have hmapd : fs0.map (fun f => f.dotted_name) =
          (fs0.map (fun f => f.parents)).map joinDots := by
        rw [List.map_map]
        refine List.map_congr_left ?_
        intro f hf
        obtain ⟨⟨_, hdot, _⟩, _⟩ := hshape f hf
        exact hdot
      rw [hmapd, hchains']
      have hwfc := specLeafChains_wf fields hwff
      refine List.Nodup.map_on ?_ (specLeafChains_nodup fields hwff)
      intro c1 hc1 c2 hc2 heq
      exact joinDots_inj c1 c2 (hwfc c1 hc1).2 (hwfc c2 hc2).2 (hwfc c1 hc1).1
        (hwfc c2 hc2).1 heq
  all_goals simp only [collectFieldsRaw] at hraw
  all_goals cases hraw

/-- Witness for C2 (amended): the invariants instantiated on the concrete
collection result of the nested example model. -/
theorem C2_collection_invariants_witness :
    collect_fields mNest [] true false = Except.ok mNestFields ∧
    ((∀ f ∈ mNestFields, f.parents ≠ [] ∧ f.parents.getLast? = some f.name ∧
        f.dotted_name = joinDots f.parents) ∧
      mNestFields.map (fun f => f.parents) = specLeafChains (fieldsOf mNest) ∧
      (mNestFields.map (fun f => f.dotted_name)).Nodup) := by
  have hc : collect_fields mNest [] true false = Except.ok mNestFields := by
    simp [collect_fields, collectFieldsRaw, collectFieldList, collectOneField,
      collectUnionArgs, mNest, mFoo, matchesExcluded, joinDots, alookup, mNestFields]
    rfl
  exact ⟨hc, C2_collection_invariants mNest true mNestFields
    (by simp [mNest, mFoo, wfType, wfFields, wfUnion, wfName, wordCharB])
    (by simp [mNest, mFoo, noModelUnionT, noModelUnionFields, noModelUnionArgs])
    hc⟩

/-- Counterexample for C2 as stated: collecting a model whose field is a
union of two sub-models that share a field name yields duplicate dotted
names, and the `parents` chain of a descriptor already contains the local
name, so appending the local name to `parents` does not recover the dotted
name. -/
theorem C2_counterexample :
    (collect_fields mUnionClash [] true false).map
        (fun fs => fs.map (fun f => (f.dotted_name, f.parents, f.name))) =
      .ok [("f.a".toList, ["f".toList, "a".toList], "a".toList),
           ("f.b".toList, ["f".toList, "b".toList], "b".toList),
           ("f.a".toList, ["f".toList, "a".toList], "a".toList),
           ("f".toList, ["f".toList], "f".toList)] ∧
    ¬ (["f.a".toList, "f.b".toList, "f.a".toList, "f".toList] : List Str).Nodup ∧
    joinDots (["f".toList, "a".toList] ++ ["a".toList]) ≠ "f.a".toList := by
  refine ⟨?_, by decide, by decide⟩
  simp [collect_fields, collectFieldsRaw, collectFieldList, collectOneField,
    collectUnionArgs, mUnionClash, mFooReq, mBarA, matchesExcluded, joinDots, alookup]
  rfl

/-- C6 (amended): the `PydanclickParamType` wrapper returns `None` (not the
sentinel itself) when invoked on a `PydanclickDefault` sentinel, without
invoking the wrapped parser, and delegates to the wrapped parser on every
non-sentinel value. -/
theorem C6_sentinel_handling (t : ClickType) (v : Value) :
    (isPydanclickDefault v = true → convertClick (.pydanclick t) v = .ok .vNone) ∧
    (isPydanclickDefault v = false → convertClick (.pydanclick t) v = convertClick t v) := by
  constructor <;> intro h <;> simp [convertClick, h]

/-- Witness for C6: both branches of the theorem at concrete inputs. -/
theorem C6_sentinel_handling_witness :
    (isPydanclickDefault (Value.vDefault (Value.vInt 5)) = true ∧
      convertClick (.pydanclick .intT) (Value.vDefault (Value.vInt 5)) = .ok .vNone) ∧
    (isPydanclickDefault (Value.vStr ['3']) = false ∧
      convertClick (.pydanclick .intT) (Value.vStr ['3']) = convertClick .intT (Value.vStr ['3'])) :=
  ⟨⟨rfl, (C6_sentinel_handling .intT (Value.vDefault (Value.vInt 5))).1 rfl⟩,
   ⟨rfl, (C6_sentinel_handling .intT (Value.vStr ['3'])).2 rfl⟩⟩

/-- Counterexample for C6 as stated: on the sentinel, the wrapped parser
returns `None`, not the sentinel value unchanged. -/
theorem C6_counterexample :
    convertClick (.pydanclick .string) (Value.vDefault (Value.vStr ['x'])) = .ok .vNone ∧
    (Except.ok Value.vNone : Except Str Value) ≠ .ok (Value.vDefault (Value.vStr ['x'])) := by
  exact ⟨rfl, by simp⟩

/-- C5 (amended): for an optional wrapper whose non-null member is a
supported primitive (`str`, `int` or `bool`), the mapper collapses the
wrapper to the inner member's mapping precisely when the field carries an
explicit default value (`default is not PydanticUndefined`), whether or not
that default is null; a field with no explicit default — including one with
only a default factory, whose `default` stays `PydanticUndefined` — is not
collapsed and falls through to the JSON fallback type. -/
theorem C5_optional_collapse (t : PType) (d : PDefault) (meta : List NumConstraint)
    (descr : Option Str) (ht : t = .tStr ∨ t = .tInt ∨ t = .tBool) :
    get_click_type_from_field ⟨.tUnion [t, .tNone], d, meta, descr⟩ =
      (match d with
       | .value _ => get_click_type_from_field ⟨t, d, meta, descr⟩
       | _ => ClickType.custom (.tUnion [t, .tNone])) := by
  rcases ht with rfl | rfl | rfl <;> cases d <;>
    simp [get_click_type_from_field, create_custom_type, get_numerical_type, getArgs,
      isUnionT, isNoneT]

/-- Witness for C5: an optional int field with the non-null default `5` is
collapsed to the plain int mapping. -/
theorem C5_optional_collapse_witness :
    get_click_type_from_field ⟨.tUnion [.tInt, .tNone], .value (.vInt 5), [], none⟩ =
      get_click_type_from_field ⟨.tInt, .value (.vInt 5), [], none⟩ :=
  C5_optional_collapse .tInt (.value (.vInt 5)) [] none (Or.inr (Or.inl rfl))

/-- Counterexample for C5 as stated: a field `Optional[int] = 5` has a
non-null default, yet the mapper collapses it to the int mapping instead of
leaving the wrapper uncollapsed (the uncollapsed mapping would be the JSON
fallback type). -/
theorem C5_counterexample :
    get_click_type_from_field ⟨.tUnion [.tInt, .tNone], .value (.vInt 5), [], none⟩ =
      ClickType.intT ∧
    ClickType.intT ≠ ClickType.custom (.tUnion [.tInt, .tNone]) := by
  exact ⟨rfl, by simp⟩

/-- C8 (amended): the required flag of an emitted option equals the field's
`is_required()` (no default value and no default factory) regardless of
whether the option is multiple, except when overridden by per-field extra
options. -/
theorem C8_required_flag (argName oname : Str) (fi : FieldInfo) (doc : Option Str)
    (short : Option Str) (kw : ParamKwargs) (multiple : Bool) :
    (get_option_from_field argName oname fi doc short kw multiple).required =
      kw.requiredK.getD (is_required fi) := by
  cases hk : kw.requiredK <;>
    simp [get_option_from_field, updateKwargs, hk, Option.orElse]

/-- Counterexample for C8 as stated: unpack-converting a list of models with
a required child field yields an option that is multiple and still required
(`required` ignores `multiple`). -/
theorem C8_counterexample :
    (convert_to_click mFoosReq [] [] [] none true [] true).map
        (fun r => r.1.map (fun o => (o.multiple, o.required))) =
      .ok [(true, true), (true, false)] := by
  simp [convert_to_click, collect_fields, collectFieldsRaw, collectFieldList, collectOneField,
    collectUnionArgs, mFoosReq, mFooReq, matchesExcluded, joinDots, alookup,
    convert_fields_to_options, convertFieldsGo, get_option_name, get_base_option_name,
    baseOptionNameGo, splitOnChar, get_option_from_field, updateKwargs, is_required,
    get_type_from_field, get_click_type_from_field, get_numerical_type, getArgs,
    get_range_from_metadata, get_default_value_from_field, orTruthy, joinSep,
    snake_case_to_kebab_case, PydField.is_boolean_flag, PydField.multiple,
    convert_to_valid_prefix, strip_option_name, isUnionT, isNoneT, create_custom_type]
  rfl

/-- C9 (amended): `get_config` resolves each key by the priority non-default
call-site argument over schema-level `__pydanclick__` value over hard-coded
default, except `docstring_style`: a schema-level `docstring_style` always
wins over the call-site one, which applies only when the schema defines
none. -/
theorem C9_config_priority (mp : ConfigPatch) (exclude : List Str)
    (rename shorten : Option (List (Str × Str))) (pfx : Option Str)
    (parse_docstring : Option Bool) (docstring_style : Str)
    (extra_options : Option (List (Str × ParamKwargs))) :
    (get_config (some mp) exclude rename shorten pfx parse_docstring docstring_style
        extra_options) =
      { exclude := if exclude.isEmpty then mp.exclude.getD [] else exclude
        aliases := rename.orElse (fun _ => mp.rename)
        shorten := shorten.orElse (fun _ => mp.shorten)
        pfx := match pfx with
          | some p => some p
          | none => mp.pfx.getD none
        parse_docstring := (parse_docstring.orElse (fun _ => mp.parse_docstring)).getD true
        docstring_style := match mp.docstring_style with
          | some s => s
          | none => docstring_style
        extra_options := extra_options.orElse (fun _ => mp.extra_options) } := by
  cases he : exclude.isEmpty <;> cases hp : pfx <;> cases hd : mp.docstring_style <;>
    simp [get_config, mergeConfig, he, hp, hd, Option.orElse]

/-- Counterexample for C9 as stated: an explicitly passed non-default
`docstring_style` (here `sphinx`) loses to the schema-level value
(`numpy`). -/
theorem C9_counterexample :
    (get_config (some { docstring_style := some "numpy".toList }) [] none none none none
        "sphinx".toList none).docstring_style = "numpy".toList ∧
    "numpy".toList ≠ "sphinx".toList := by
  exact ⟨rfl, by decide⟩

/-- C10 (amended): `model_validate_kwargs` removes from the caller's raw
keyword mapping exactly the entries whose key appears in the argument-name
to dotted-name mapping, and leaves every other entry in place (in order);
the assembly result itself is a pure function of the inputs. -/
theorem C10_kwargs_mutation {α : Type} (validate : List (Str × Value) → Except Str α)
    (kwargs : List (Str × Value)) (qualified_names : List (Str × Str))
    (unpacked_names : List Str) :
    (model_validate_kwargs validate kwargs qualified_names unpacked_names).2 =
      kwargs.filter (fun kv => (alookup qualified_names kv.1).isNone) ∧
    ∀ kv, kv ∈ (model_validate_kwargs validate kwargs qualified_names unpacked_names).2 ↔
      (kv ∈ kwargs ∧ alookup qualified_names kv.1 = none) := by
  refine ⟨rfl, fun kv => ?_⟩
  simp [model_validate_kwargs, parse_options, List.mem_filter, Option.isNone_iff_eq_none]

/-- Counterexample for C10 as stated: a consumed key is popped from the raw
keyword mapping, so the mapping is not left unchanged. -/
theorem C10_counterexample :
    (model_validate_kwargs (fun raw => .ok raw) [("a".toList, Value.vInt 1)]
        [("a".toList, "a".toList)] []).2 = [] ∧
    ([] : List (Str × Value)) ≠ [("a".toList, Value.vInt 1)] := by
  constructor
  · rfl
  · simp

/-- `Except.ok` is a left identity for bind. -/
theorem except_ok_bind {α β : Type} (a : α) (f : α → Except Str β) :
    (Except.ok a >>= f : Except Str β) = f a := rfl

/-- Every character rendered by `digitChar` is a decimal digit. -/
theorem digitChar_isDigit (d : Nat) : (digitChar d).isDigit = true := by
  unfold digitChar
  split <;> rfl

/-- `digitVal` inverts `digitChar` on single digits. -/
theorem digitVal_digitChar (d : Nat) (h : d < 10) : digitVal (digitChar d) = d := by
  interval_cases d <;> rfl

/-- The decimal rendering of a natural number is nonempty. -/
theorem natToDigitsStr_ne_nil (m : Nat) : natToDigitsStr m ≠ [] := by
  unfold natToDigitsStr
  split
  · simp
  · rename_i h
    simp only [ne_eq, List.reverse_eq_nil_iff, List.map_eq_nil_iff]
    exact Nat.digits_ne_nil_iff_ne_zero.mpr h

/-- The decimal rendering of a natural number is made of digits. -/
theorem natToDigitsStr_all_digit (m : Nat) : ∀ c ∈ natToDigitsStr m, c.isDigit = true := by
  intro c hc
  unfold natToDigitsStr at hc
  split at hc
  · simp only [List.mem_singleton] at hc
    subst hc
    rfl
  · simp only [List.mem_reverse, List.mem_map] at hc
    obtain ⟨d, _, rfl⟩ := hc
    exact digitChar_isDigit d

/-- Parsing the decimal rendering of a natural number recovers it. -/
theorem parseNatDigits_natToDigitsStr (m : Nat) :
    parseNatDigits (natToDigitsStr m) = some m := by
  unfold parseNatDigits
  rw [if_pos]
  · congr 1
    unfold natToDigitsStr
    split
    · rename_i h
      subst h
      decide
    · rw [List.map_reverse, List.reverse_reverse, List.map_map]
      have h1 : ∀ d ∈ Nat.digits 10 m, (digitVal ∘ digitChar) d = id d :=
        fun d hd => digitVal_digitChar d (Nat.digits_lt_base (by norm_num) hd)
      rw [List.map_congr_left h1, List.map_id, Nat.ofDigits_digits]
  · have h0 : (natToDigitsStr m).isEmpty = false := by
      cases hn : natToDigitsStr m
      · exact absurd hn (natToDigitsStr_ne_nil m)
      · rfl
    simp only [Bool.and_eq_true, Bool.not_eq_true', List.all_eq_true]
    exact ⟨h0, natToDigitsStr_all_digit m⟩

/-- On an all-digit string, signed parsing is unsigned parsing. -/
theorem parseIntStr_no_sign (s : Str) (h : ∀ c ∈ s, c.isDigit = true) :
    parseIntStr s = (parseNatDigits s).map (fun n => (n : Int)) := by
  unfold parseIntStr
  split
  · exact absurd (h '-' (by simp)) (by decide)
  · exact absurd (h '+' (by simp)) (by decide)
  · rfl

/-- Parsing the decimal rendering of an integer recovers it. -/
theorem parseIntStr_renderInt (n : Int) : parseIntStr (renderInt n) = some n := by
  unfold renderInt
  split
  · rename_i h
    rw [show parseIntStr ('-' :: natToDigitsStr n.natAbs) =
        (parseNatDigits (natToDigitsStr n.natAbs)).map (fun m => -(m : Int)) from rfl]
    rw [parseNatDigits_natToDigitsStr]
    show some (-(n.natAbs : Int)) = some n
    congr 1
    omega
  · rename_i h
    rw [parseIntStr_no_sign _ (natToDigitsStr_all_digit _), parseNatDigits_natToDigitsStr]
    show some ((n.natAbs : Int)) = some n
    congr 1
    omega

/-- The range fold of `_get_range_from_metadata`, named. -/
theorem get_range_eq_foldl (md : List NumConstraint) :
    get_range_from_metadata md = md.foldl rangeStep {} := rfl

/-- Folding constraints the value satisfies into a range dict that already
accepts it yields a range dict that accepts it. -/
theorem rangeAccepts_foldl (n : Int) (md : List NumConstraint) : ∀ (r : RangeDict),
    md.all (fun c => satisfiesConstraint c n) = true →
    rangeAccepts r.min r.max (r.minOpen.getD false) (r.maxOpen.getD false) n = true →
    rangeAccepts (md.foldl rangeStep r).min (md.foldl rangeStep r).max
      ((md.foldl rangeStep r).minOpen.getD false)
      ((md.foldl rangeStep r).maxOpen.getD false) n = true := by
  induction md with
  | nil =>
    intro r _ hr
    simpa using hr
  | cons c md ih =>
    intro r hall hr
    simp only [List.all_cons, Bool.and_eq_true] at hall
    rw [rangeAccepts.eq_def, Bool.and_eq_true] at hr
    rw [List.foldl_cons]
    refine ih (rangeStep r c) hall.2 ?_
    rw [rangeAccepts.eq_def, Bool.and_eq_true]
    rcases c with m | m | m | m
    · exact ⟨by simpa [rangeStep, satisfiesConstraint] using hall.1,
        by simpa [rangeStep] using hr.2⟩
    · exact ⟨by simpa [rangeStep, satisfiesConstraint] using hall.1,
        by simpa [rangeStep] using hr.2⟩
    · exact ⟨by simpa [rangeStep] using hr.1,
        by simpa [rangeStep, satisfiesConstraint] using hall.1⟩
    · exact ⟨by simpa [rangeStep] using hr.1,
        by simpa [rangeStep, satisfiesConstraint] using hall.1⟩

/-- The range derived from metadata a value satisfies accepts the value. -/
theorem range_metadata_accepts (n : Int) (md : List NumConstraint)
    (h : md.all (fun c => satisfiesConstraint c n) = true) :
    rangeAccepts (get_range_from_metadata md).min (get_range_from_metadata md).max
      ((get_range_from_metadata md).minOpen.getD false)
      ((get_range_from_metadata md).maxOpen.getD false) n = true := by
  rw [get_range_eq_foldl]
  exact rangeAccepts_foldl n md {} h (by rfl)

/-- An accepted scalar value is never `None`. -/
theorem isNoneV_of_accepts {a : PType} {m : List NumConstraint} {v : Value}
    (h : acceptsScalar a m v = true) : isNoneV v = false := by
  rcases v with _ | s | n | b | xs | xs | p
  case vNone =>
    rcases a <;> simp [acceptsScalar] at h
  all_goals rfl

/-- Applying the produced parser to the command-line rendering of an accepted
scalar value recovers the value. -/
theorem convertClick_roundtrip (fi : FieldInfo) (v : Value)
    (hflat : fi.ann = PType.tStr ∨ fi.ann = PType.tInt ∨ fi.ann = PType.tBool)
    (hacc : acceptsScalar fi.ann fi.metadata v = true) :
    convertClick (get_type_from_field fi) (.vStr (renderValue v)) = .ok v := by
  rcases hflat with h | h | h
  · rcases v with _ | s | n | b | xs | xs | p <;> rw [h] at hacc <;>
      simp only [acceptsScalar] at hacc
    case vStr =>
      simp [get_type_from_field, get_click_type_from_field, h, isUnionT, convertClick,
        isPydanclickDefault, renderValue]
    all_goals cases hacc
  · rcases v with _ | s | n | b | xs | xs | p <;> rw [h] at hacc <;>
      simp only [acceptsScalar] at hacc
    case vInt =>
      have htype : get_type_from_field fi = .pydanclick (get_numerical_type fi) := by
        simp [get_type_from_field, get_click_type_from_field, h, isUnionT]
      rw [htype]
      have hnum : get_numerical_type fi =
          (if !(get_range_from_metadata fi.metadata).isEmptyDict then
            ClickType.intRange (get_range_from_metadata fi.metadata).min
              (get_range_from_metadata fi.metadata).max
              ((get_range_from_metadata fi.metadata).minOpen.getD false)
              ((get_range_from_metadata fi.metadata).maxOpen.getD false)
          else ClickType.intT) := by
        simp [get_numerical_type, h]
      rw [hnum]
      have hr := range_metadata_accepts n fi.metadata hacc
      split
      · simp [convertClick, isPydanclickDefault, renderValue, parseIntStr_renderInt, hr]
      · simp [convertClick, isPydanclickDefault, renderValue, parseIntStr_renderInt]
    all_goals cases hacc
  · rcases v with _ | s | n | b | xs | xs | p <;> rw [h] at hacc <;>
      simp only [acceptsScalar] at hacc
    case vBool =>
      have htype : get_type_from_field fi = .pydanclick .boolT := by
        simp [get_type_from_field, get_click_type_from_field, h, isUnionT]
      rw [htype]
      cases b <;> rfl
    all_goals cases hacc

/-- On a list of scalar leaf fields, the collector returns one leaf
descriptor per field, in order. -/
theorem collectFieldList_flat (fields : List PFieldDecl) (docs : List (Str × Str))
    (hflat : ∀ fd ∈ fields, fd.2.1 = PType.tStr ∨ fd.2.1 = PType.tInt ∨ fd.2.1 = PType.tBool)
    (hne : ∀ fd ∈ fields, fd.1 ≠ []) :
    collectFieldList fields docs [] true false = .ok (fields.map (leafOf docs)) := by
  induction fields with
  | nil =>
    rw [collectFieldList]
    rfl
  | cons fd rest ih =>
    obtain ⟨fname, fann, fdflt, fmeta, fdescr⟩ := fd
    have h1 := hflat _ (List.mem_cons_self _ _)
    have h2 := hne _ (List.mem_cons_self _ _)
    simp only at h1 h2
    have ih' := ih (fun fd hfd => hflat fd (List.mem_cons_of_mem _ hfd))
      (fun fd hfd => hne fd (List.mem_cons_of_mem _ hfd))
    rw [collectFieldList]
    rcases h1 with h | h | h <;> subst h <;>
      simp [collectOneField, ih', h2, leafOf, joinDots, except_ok_bind]

/-- With no aliases and no user prefix the base-name countdown always falls
through to the kebab-cased dotted name. -/
theorem baseOptionNameGo_no_alias (parents : List Str) (dotted : Str) : ∀ i : Nat,
    baseOptionNameGo parents [] [] dotted i =
      .ok ('-' :: '-' :: snake_case_to_kebab_case dotted) := by
  intro i
  induction i with
  | zero => simp [baseOptionNameGo]
  | succ i ih => simp [baseOptionNameGo, alookup, ih]

/-- `get_option_name` with no aliases and no user prefix. -/
theorem get_option_name_no_alias (dotted : Str) (isB : Bool) :
    get_option_name dotted [] isB [] = .ok (noAliasOptionName dotted isB) := by
  rw [get_option_name, get_base_option_name]
  rw [baseOptionNameGo_no_alias]
  rw [except_ok_bind]
  rw [noAliasOptionName]
  split
  · rfl
  · simp

/-- `convertFieldsGo` on leaf descriptors under default settings. -/
theorem convertFieldsGo_flat (leaves : List PydField)
    (hp : ∀ f ∈ leaves, f.parents = [f.name] ∧ f.unpacked_from = none) :
    convertFieldsGo leaves [] [] [] [] [] =
      .ok (leaves.map (fun f => (f.name, f.dotted_name)), leaves.map optLeaf) := by
  induction leaves with
  | nil =>
    rw [convertFieldsGo]
    rfl
  | cons f rest ih =>
    obtain ⟨hp1, hp3⟩ := hp f (List.mem_cons_self _ _)
    have ih' := ih (fun f hf => hp f (List.mem_cons_of_mem _ hf))
    rw [convertFieldsGo]
    rw [hp1]
    rw [get_option_name_no_alias, except_ok_bind, ih', except_ok_bind]
    simp [optLeaf, get_option_from_field, updateKwargs, alookup, PydField.multiple, hp3,
      joinSep, Option.orElse]

/-- Looking up a key present in a tabulated association list. -/
theorem alookup_map_of_mem {α : Type} (g : Str → α) (names : List Str) (k : Str)
    (hk : k ∈ names) : alookup (names.map (fun n => (n, g n))) k = some (g k) := by
  induction names with
  | nil => cases hk
  | cons n rest ih =>
    simp only [List.map_cons, alookup]
    by_cases h : n = k
    · subst h
      simp
    · rw [if_neg h]
      refine ih ?_
      rcases List.mem_cons.mp hk with h' | h'
      · exact absurd h'.symm h
      · exact h'

/-- Simulated parsing of the leaf options recovers the assigned values. -/
theorem simulateKwargs_flat (leaves : List PydField) (qn : List (Str × Str))
    (vals : Str → Value)
    (hq : ∀ f ∈ leaves, alookup qn f.name = some f.name)
    (hrt : ∀ f ∈ leaves, convertClick (get_type_from_field f.field_info)
        (.vStr (renderValue (vals f.name))) = .ok (vals f.name)) :
    simulateKwargs (leaves.map optLeaf) qn vals =
      .ok (leaves.map (fun f => (f.name, vals f.name))) := by
  induction leaves with
  | nil =>
    rw [List.map_nil, simulateKwargs]
    rfl
  | cons f rest ih =>
    have ih' := ih (fun f hf => hq f (List.mem_cons_of_mem _ hf))
      (fun f hf => hrt f (List.mem_cons_of_mem _ hf))
    rw [List.map_cons, simulateKwargs]
    rw [show (optLeaf f).argument_name = f.name from rfl]
    rw [hq f (List.mem_cons_self _ _)]
    rw [show (optLeaf f).typeO = get_type_from_field f.field_info from rfl]
    rw [show (some f.name).getD [] = f.name from rfl]
    rw [hrt f (List.mem_cons_self _ _), except_ok_bind, ih', except_ok_bind]
    rfl

/-- When every key of the keyword mapping is in the name mapping (bound to
itself) and no value is `None`, `_parse_options` keeps everything and leaves
nothing behind. -/
theorem parse_options_all_found (qn : List (Str × Str)) (kw : List (Str × Value))
    (h : ∀ kv ∈ kw, alookup qn kv.1 = some kv.1 ∧ isNoneV kv.2 = false) :
    parse_options qn kw = (kw, []) := by
  induction kw with
  | nil => rfl
  | cons kv rest ih =>
    obtain ⟨k, v⟩ := kv
    obtain ⟨h1, h2⟩ := h _ (List.mem_cons_self _ _)
    have ih' := ih (fun kv hkv => h kv (List.mem_cons_of_mem _ hkv))
    simp only [parse_options, Prod.mk.injEq] at ih' ⊢
    simp only at h1 h2
    rw [List.filterMap_cons, List.filter_cons]
    simp [h1, h2, ih'.1, ih'.2]

/-- Splitting on an absent separator returns the whole string. -/
theorem splitOnChar_no_sep (sep : Char) (s : Str) (h : sep ∉ s) :
    splitOnChar sep s = [s] := by
  induction s with
  | nil => rfl
  | cons c rest ih =>
    have hc : c ≠ sep := fun hcc => h (hcc ▸ List.mem_cons_self _ _)
    rw [splitOnChar, ih (fun hm => h (List.mem_cons_of_mem _ hm))]
    simp [hc]

/-- Setting a fresh key appends it. -/
theorem dictSet_fresh (d : List (Str × Value)) (k : Str) (v : Value)
    (h : k ∉ d.map Prod.fst) : dictSet d k v = d ++ [(k, v)] := by
  induction d with
  | nil => rfl
  | cons kv rest ih =>
    obtain ⟨kk, vv⟩ := kv
    simp only [List.map_cons, List.mem_cons, not_or] at h
    rw [dictSet, if_neg (Ne.symm h.1), ih h.2, List.cons_append]

/-- Inserting at a one-segment path is a plain dict write. -/
theorem insertPath_single (d : List (Str × Value)) (k : Str) (v : Value) :
    insertPath d [k] v = .ok (dictSet d k v) := rfl

/-- Unflattening dot-free fresh keys appends them in order. -/
theorem unflattenGo_flat (items : List (Str × Value)) : ∀ (nested : List (Str × Value)),
    (∀ kv ∈ items, kv.1 ≠ [] ∧ '.' ∉ kv.1) →
    (nested.map Prod.fst ++ items.map Prod.fst).Nodup →
    unflattenGo items nested = .ok (nested ++ items) := by
  induction items with
  | nil =>
    intro nested _ _
    rw [unflattenGo]
    simp
  | cons kv rest ih =>
    intro nested hk hnd
    obtain ⟨k, v⟩ := kv
    obtain ⟨hk1, hk2⟩ := hk _ (List.mem_cons_self _ _)
    simp only at hk1 hk2
    have hfresh : k ∉ nested.map Prod.fst := by
      simp only [List.map_cons] at hnd
      intro hmem
      exact absurd (List.mem_cons_self k (rest.map Prod.fst))
        ((List.disjoint_of_nodup_append hnd) hmem)
    rw [unflattenGo, if_neg hk1]
    rw [splitOnChar_no_sep _ _ hk2, insertPath_single, except_ok_bind,
      dictSet_fresh _ _ _ hfresh]
    rw [ih (nested ++ [(k, v)]) (fun kv hkv => hk kv (List.mem_cons_of_mem _ hkv)) ?hnd]
    · simp
    case hnd =>
      simp only [List.map_append, List.map_cons] at hnd ⊢
      simpa [List.append_assoc] using hnd

/-- Field-by-field validation when every field finds its accepted value. -/
theorem modelValidateFlatGo_all (raw : List (Str × Value)) (flds : List PFieldDecl)
    (vals : Str → Value)
    (h : ∀ fd ∈ flds, alookup raw fd.1 = some (vals fd.1) ∧
      acceptsScalar fd.2.1 fd.2.2.2.1 (vals fd.1) = true) :
    modelValidateFlatGo raw flds = .ok (flds.map (fun fd => (fd.1, vals fd.1))) := by
  induction flds with
  | nil => rfl
  | cons fd rest ih =>
    obtain ⟨fname, fann, fdflt, fmeta, fdescr⟩ := fd
    obtain ⟨h1, h2⟩ := h _ (List.mem_cons_self _ _)
    have ih' := ih (fun fd hfd => h fd (List.mem_cons_of_mem _ hfd))
    simp only at h1 h2
    rcases fdflt with _ | dv | dv <;>
      simp only [modelValidateFlatGo] <;>
      rw [h1] <;>
      simp [h2, ih', except_ok_bind]

/-- C1: for every model whose fields are all scalar leaves (string, integer
or boolean annotations, well-formed pairwise-distinct names) and every
assignment of accepted values to those fields, converting the model with
`convert_to_click` under default settings, applying each produced option's
parser to the command-line string rendering of the corresponding value, and
assembling the resulting keyword mapping with the returned validator yields
the same instance as constructing the model directly from the values. -/
theorem C1_round_trip (docs : List (Str × Str)) (fields : List PFieldDecl)
    (vals : Str → Value)
    (hflat : ∀ fd ∈ fields, fd.2.1 = PType.tStr ∨ fd.2.1 = PType.tInt ∨ fd.2.1 = PType.tBool)
    (hnames : ∀ fd ∈ fields, wfName fd.1 = true)
    (hnd : (fields.map (fun fd => fd.1)).Nodup)
    (hvals : ∀ fd ∈ fields, acceptsScalar fd.2.1 fd.2.2.2.1 (vals fd.1) = true) :
    round_trip (.tModel docs fields) vals = .ok (directInstance fields vals) := by
  have hne : ∀ fd ∈ fields, fd.1 ≠ [] := fun fd hfd => wfName_ne_nil (hnames fd hfd)
  have hcoll : collect_fields (.tModel docs fields) [] true false =
      .ok (fields.map (leafOf docs)) := by
    rw [collect_fields]
    rw [show collectFieldsRaw (.tModel docs fields) true false =
        collectFieldList fields docs [] true false from rfl]
    rw [collectFieldList_flat fields docs hflat hne]
    simp [Except.map, matchesExcluded]
  have hp : ∀ f ∈ fields.map (leafOf docs),
      f.parents = [f.name] ∧ f.unpacked_from = none := by
    intro f hf
    obtain ⟨fd, _, rfl⟩ := List.mem_map.mp hf
    exact ⟨rfl, rfl⟩
  have hcfo : convert_fields_to_options (fields.map (leafOf docs)) none [] [] [] =
      .ok ((fields.map (leafOf docs)).map (fun f => (f.name, f.dotted_name)),
        (fields.map (leafOf docs)).map optLeaf) := by
    rw [show convert_fields_to_options (fields.map (leafOf docs)) none [] [] [] =
        convertFieldsGo (fields.map (leafOf docs)) [] [] [] [] [] from rfl]
    exact convertFieldsGo_flat _ hp
  have hqn : (fields.map (leafOf docs)).map (fun f => (f.name, f.dotted_name)) =
      (fields.map (fun fd => fd.1)).map (fun n => (n, n)) := by
    simp [List.map_map, leafOf, Function.comp]
  have hun0 : (fields.map (leafOf docs)).filterMap (fun f => f.unpacked_from) = [] := by
    rw [List.filterMap_eq_nil]
    intro f hf
    obtain ⟨fd, _, rfl⟩ := List.mem_map.mp hf
    rfl
  have hconv : convert_to_click (.tModel docs fields) [] [] [] none true [] false =
      .ok ((fields.map (leafOf docs)).map optLeaf,
        (fields.map (fun fd => fd.1)).map (fun n => (n, n)), []) := by
    unfold convert_to_click
    rw [hcoll, except_ok_bind, hcfo, except_ok_bind]
    simp [hqn, hun0]
    rfl
  have hq : ∀ f ∈ fields.map (leafOf docs),
      alookup ((fields.map (fun fd => fd.1)).map (fun n => (n, n))) f.name = some f.name := by
    intro f hf
    obtain ⟨fd, hfd, rfl⟩ := List.mem_map.mp hf
    have := alookup_map_of_mem (fun n => n) (fields.map (fun fd => fd.1)) fd.1
      (List.mem_map_of_mem _ hfd)
    simpa [leafOf] using this
  have hrt : ∀ f ∈ fields.map (leafOf docs),
      convertClick (get_type_from_field f.field_info)
        (.vStr (renderValue (vals f.name))) = .ok (vals f.name) := by
    intro f hf
    obtain ⟨fd, hfd, rfl⟩ := List.mem_map.mp hf
    refine convertClick_roundtrip _ _ ?_ ?_
    · simpa [leafOf] using hflat fd hfd
    · simpa [leafOf] using hvals fd hfd
  have hsim : simulateKwargs ((fields.map (leafOf docs)).map optLeaf)
      ((fields.map (fun fd => fd.1)).map (fun n => (n, n))) vals =
      .ok ((fields.map (fun fd => fd.1)).map (fun n => (n, vals n))) := by
    rw [simulateKwargs_flat _ _ _ hq hrt]
    congr 1
    simp [List.map_map, leafOf, Function.comp]
  have hpo : parse_options ((fields.map (fun fd => fd.1)).map (fun n => (n, n)))
      ((fields.map (fun fd => fd.1)).map (fun n => (n, vals n))) =
      ((fields.map (fun fd => fd.1)).map (fun n => (n, vals n)), []) := by
    refine parse_options_all_found _ _ ?_
    intro kv hkv
    obtain ⟨k, hk, rfl⟩ := List.mem_map.mp hkv
    constructor
    · have := alookup_map_of_mem (fun n => n) (fields.map (fun fd => fd.1)) k hk
      simpa using this
    · obtain ⟨fd, hfd, rfl⟩ := List.mem_map.mp hk
      exact isNoneV_of_accepts (hvals fd hfd)
  have hkeys : ∀ kv ∈ (fields.map (fun fd => fd.1)).map (fun n => (n, vals n)),
      kv.1 ≠ [] ∧ '.' ∉ kv.1 := by
    intro kv hkv
    obtain ⟨k, hk, rfl⟩ := List.mem_map.mp hkv
    obtain ⟨fd, hfd, rfl⟩ := List.mem_map.mp hk
    refine ⟨wfName_ne_nil (hnames fd hfd), ?_⟩
    intro hdot
    exact absurd (wfName_chars (hnames fd hfd) '.' hdot) (by decide)
  have hnodup2 : (([] : List (Str × Value)).map Prod.fst ++
      ((fields.map (fun fd => fd.1)).map (fun n => (n, vals n))).map Prod.fst).Nodup := by
    simpa [List.map_map, Function.comp] using hnd
  have hunf : unflatten_dict ((fields.map (fun fd => fd.1)).map (fun n => (n, vals n))) =
      .ok ((fields.map (fun fd => fd.1)).map (fun n => (n, vals n))) := by
    rw [unflatten_dict, unflattenGo_flat _ [] hkeys hnodup2, List.nil_append]
  have hval : modelValidateFlat fields
      ((fields.map (fun fd => fd.1)).map (fun n => (n, vals n))) =
      .ok (directInstance fields vals) := by
    unfold modelValidateFlat
    rw [modelValidateFlatGo_all _ _ vals ?_, except_ok_bind]
    · rfl
    · intro fd hfd
      refine ⟨?_, hvals fd hfd⟩
      have := alookup_map_of_mem vals (fields.map (fun fd => fd.1)) fd.1
        (List.mem_map_of_mem _ hfd)
      simpa using this
  unfold round_trip
  rw [hconv, except_ok_bind]
  simp only [hsim, except_ok_bind, model_validate_kwargs, hpo, fieldsOf, hunf,
    applyUnpack, hval]

/-- Witness for C1: the round trip on the concrete flat model `mFoo` (an
integer field and a boolean field) with values `5` and `False`. -/
theorem C1_round_trip_witness :
    round_trip mFoo mFlatVals = Except.ok (directInstance (fieldsOf mFoo) mFlatVals) := by
  have h := C1_round_trip [] (fieldsOf mFoo) mFlatVals
    (by
      intro fd hfd
      simp only [fieldsOf, mFoo, List.mem_cons, List.not_mem_nil, or_false] at hfd
      rcases hfd with rfl | rfl
      · right; left; rfl
      · right; right; rfl)
    (by
      intro fd hfd
      simp only [fieldsOf, mFoo, List.mem_cons, List.not_mem_nil, or_false] at hfd
      rcases hfd with rfl | rfl <;> decide)
    (by decide)
    (by
      intro fd hfd
      simp only [fieldsOf, mFoo, List.mem_cons, List.not_mem_nil, or_false] at hfd
      rcases hfd with rfl | rfl <;> decide)
  exact h

end Pydanclick
